import Mathlib

/-!
# Package Archive Integrity Engine — verification of `internal/pack`

This file gives a shallow embedding of the archive-building code in
`internal/pack/itpkg.go` and the extraction code in `internal/pack/tar.go`
of the intent-cli repository, together with a verifier modelled from the
specification (the repository documents the `intent verify` command as
planned; no verifier exists in the source).

Cryptographic primitives (SHA-256, Ed25519) and byte-stream container
serialization (tar+gzip) are library collaborators of the engine; they are
modelled by injective executable stand-ins, and an archive is modelled as
the sequence of tar entries it contains.  File contents are modelled as
`String` (a sequence of code units); "flipping a byte" of a content is
modelled as replacing it by any different content.
-/

namespace Pack

/-! ## Injective rendering primitives (models of the crypto collaborators) -/

/-- Decimal digit as a character: `0 ↦ '0', …, 9 ↦ '9'` (other inputs map to `'9'`,
never produced for digits of base-10 numerals). -/
def dChar (d : Nat) : Char :=
  match d with
  | 0 => '0' | 1 => '1' | 2 => '2' | 3 => '3' | 4 => '4'
  | 5 => '5' | 6 => '6' | 7 => '7' | 8 => '8' | _ => '9'


/-- Little-endian base-10 digits of `n`, computed with explicit fuel (so the
recursion is structural and reduces in the kernel). -/
def natDigits : Nat → Nat → List Nat
  | 0, _ => []
  | fuel + 1, n => if n = 0 then [] else n % 10 :: natDigits fuel (n / 10)


/-- Value of a little-endian base-10 digit list. -/
def ofD : List Nat → Nat
  | [] => 0
  | d :: ds => d + 10 * ofD ds


/-- Little-endian base-10 digits of `n`, zero-padded on the high end to a fixed
width of 10 digits, rendered as characters.  Injective on `n < 10^10`; every
`Char.toNat` is below `2^32 < 10^10`, so this is injective on character codes. -/
def digitsFW (n : Nat) : List Char :=
  (natDigits 10 n ++ List.replicate (10 - (natDigits 10 n).length) 0).map dChar


/-- Concatenation of the images of `f` over a list (`flatMap`, written out so
all lemmas about it are under our control). -/
def concatMap (f : α → List β) : List α → List β
  | [] => []
  | a :: as => f a ++ concatMap f as


/-- Model of the hex-encoded SHA-256 digest of a content (the `crypto/sha256`
plus `encoding/hex` collaborators): an injective rendering of the content's
character codes as fixed-width decimal numerals.  The engine only relies on
the digest being a deterministic, collision-free function of the bytes whose
rendering contains neither a space nor a newline. -/
def sha256Hex (s : String) : String :=
  String.mk (concatMap (fun c => digitsFW c.toNat) s.data)


/-! ## Splitting characters on a separator -/

/-- Split a character list at every occurrence of `sep` (the separator is
dropped; `n` separators yield `n+1` pieces). -/
def splitOnChar (sep : Char) : List Char → List (List Char)
  | [] => [[]]
  | c :: cs =>
    if c = sep then [] :: splitOnChar sep cs
    else
      match splitOnChar sep cs with
      | [] => [[c]]
      | l :: ls => (c :: l) :: ls


/-- Re-join the pieces with the separator: left inverse of `splitOnChar`. -/
def joinWithChar (sep : Char) : List (List Char) → List Char
  | [] => []
  | [l] => l
  | l :: ls => l ++ sep :: joinWithChar sep ls


/-! ## Model of the Ed25519 primitive (cryptography library collaborator)

Keys are modelled as natural numbers; in this model the verifying key equals
the signing key (the key-pair relation of the real scheme is collapsed, which
is sound for the engine-level statements proved here: they only rely on the
signature being a deterministic function of key and message that is injective
in the pair, and on verification succeeding exactly on that function's
output). -/

/-- Variable-width decimal numeral of `n` (little-endian digit characters;
`n` itself is enough fuel since `n < 10 ^ n`). -/
def natChars (n : Nat) : List Char := (natDigits n n).map dChar


/-- Model of `ed25519.Sign key msg`: an injective rendering of the key and the
message, prefixed so it can never collide with the `"UNSIGNED"` sentinel. -/
def ed25519Sign (key : Nat) (msg : String) : String :=
  String.mk ('s' :: 'i' :: 'g' :: ':' :: natChars key ++ ':' :: concatMap (fun c => digitsFW c.toNat) msg.data)


/-- Model of Ed25519 signature verification: succeeds exactly on the signature
of the message under the (collapsed) key. -/
def ed25519Verify (pubKey : Nat) (msg sig : String) : Bool :=
  sig == ed25519Sign pubKey msg


/-! ## Model of `filepath.Join` (which cleans the joined path)

`filepath.Join(dir, name)` concatenates with a separator and applies
`path.Clean`: empty and `.` components are dropped, and a `..` component
removes the preceding component (or is kept at the front of a relative
path).  `cleanState` processes the components with the kept components in
reverse order as its accumulator. -/

def cleanState : List (List Char) → List (List Char) → List (List Char)
  | acc, [] => acc
  | acc, c :: cs =>
    if c = [] ∨ c = ['.'] then cleanState acc cs
    else if c = ['.', '.'] then
      match acc with
      | [] => cleanState [['.', '.']] cs
      | a :: as => if a = ['.', '.'] then cleanState (c :: acc) cs else cleanState as cs
    else cleanState (c :: acc) cs


/-- `filepath.Join dir name` for a relative `dir`. -/
def cleanJoin (dir name : String) : String :=
  let acc := cleanState [] (splitOnChar '/' (dir.data ++ '/' :: name.data))
  if acc.isEmpty then "." else String.mk (joinWithChar '/' acc.reverse)


/-- A component of a relative path as produced by `filepath.Rel` on a real
file system: nonempty, not a dot component, and newline-free (so that it can
appear on a checksum-manifest line). -/
def compOk (c : List Char) : Bool :=
  !c.isEmpty && c ≠ ['.'] && c ≠ ['.', '.'] && c.all (fun x => x != '\n')


/-- A normalized forward-slash relative path: nonempty with every component
well formed. -/
def pathOk (p : String) : Bool :=
  !p.data.isEmpty && (splitOnChar '/' p.data).all compOk


/-! ## Byte-lexicographic string comparison

Go compares strings byte-lexicographically (`a < b` on `string`).  The
comparison is written out over the character lists with primitive `Nat`
comparisons so it reduces in the kernel. -/

def listLtB : List Char → List Char → Bool
  | [], [] => false
  | [], _ :: _ => true
  | _ :: _, [] => false
  | a :: as, b :: bs =>
    if a.toNat < b.toNat then true
    else if b.toNat < a.toNat then false
    else listLtB as bs


/-- Go's `a < b` on strings. -/
def strLtB (a b : String) : Bool := listLtB a.data b.data


/-- Go's `a <= b` on strings (used only through `a < b` and equality). -/
def strLeB (a b : String) : Bool := a == b || strLtB a b


/-! ## Comparison sort

`sort.Slice` sorts a slice in place by a boolean `less` function; it is not
stable, but on a slice whose sort keys are pairwise distinct its output is the
unique arrangement sorted by the key.  It is modelled by an insertion sort,
together with the lemma that any two sorted arrangements of the same entries
with duplicate-free keys coincide. -/

def insertLe (le : α → α → Bool) (a : α) : List α → List α
  | [] => [a]
  | b :: bs => if le a b then a :: b :: bs else b :: insertLe le a bs


def sortLe (le : α → α → Bool) (l : List α) : List α := l.foldr (insertLe le) []


/-! ## Data model (`internal/pack/itpkg.go`) -/

/-- A decoded JSON value as Go's `encoding/json` produces into
`map[string]interface{}`: the manifest validation only ever distinguishes
objects (`map[string]interface{}`) from every other kind of value, so
non-object values are collapsed into `other`. -/
inductive JVal where
  | obj : List (String × JVal) → JVal
  | other : JVal


/-- Look up `key` in a decoded JSON object and type-assert the value to an
object (`v, ok := m[key].(map[string]interface{})`): `none` when the key is
absent or the value is not an object. -/
def getObj : List (String × JVal) → String → Option (List (String × JVal))
  | [], _ => none
  | (k, v) :: rest, key =>
    if k = key then
      match v with
      | .obj fields => some fields
      | .other => none
    else getObj rest key


/-- `SignatureMeta` — signature key information. -/
structure SignatureMeta where
  Algorithm : String
  KeyID : String


/-- `ItpkgMeta` — optional metadata. -/
structure ItpkgMeta where
  Signature : Option SignatureMeta


/-- `ItpkgManifest` — the `itpkg.json` manifest file.  The Go field `Type`
(`"app"` or `"lib"`, default `"app"`) is named `type'` here. -/
structure ItpkgManifest where
  Name : String
  Version : String
  Description : String
  Entry : String
  type' : String
  ItmlVersion : String
  Capabilities : List String
  Policies : Option (List (String × JVal))
  Meta : Option ItpkgMeta


/-- `ManifestEntry` — a file entry in `MANIFEST.sha256`. -/
structure ManifestEntry where
  Hash : String
  Path : String
deriving DecidableEq


/-- A regular file of the source tree: root-relative forward-slash path,
permission bits, contents. -/
structure SrcFile where
  path : String
  mode : Nat
  content : String
deriving DecidableEq


/-- A source tree: the parsed manifest (the `encoding/json` parse of
`itpkg.json` is a collaborator; trees whose manifest fails to parse are
outside this model), the regular files `filepath.Walk` visits (in any
enumeration order; the walk itself visits them in lexical order), and the
directories present (for `os.Stat` checks; a directory also exists when some
file lies under it). -/
structure SourceTree where
  manifest : ItpkgManifest
  files : List SrcFile
  dirs : List String


/-- `os.Stat` on `filepath.Join(srcDir, p)` succeeds. -/
def statExists (t : SourceTree) (p : String) : Bool :=
  t.dirs.contains p || t.files.any (fun f => f.path == p || (p ++ "/").isPrefixOf f.path)


/-- The package type with its default: `"app"` when the manifest's type is
empty. -/
def pkgType (m : ItpkgManifest) : String := if m.type' = "" then "app" else m.type'


/-- `ValidateManifest` — validates the manifest structure, returning the
first violated rule (the Go code returns on the first failed check). -/
def validateManifest (m : ItpkgManifest) (t : SourceTree) : Except String Unit :=
  if m.Name = "" then .error "name is required"
  else if m.Version = "" then .error "version is required"
  else if m.ItmlVersion = "" then .error "itmlVersion is required"
  else if pkgType m = "app" ∧ m.Entry = "" then .error "entry is required for app packages"
  else if pkgType m = "app" ∧ m.Entry ≠ "" ∧ ¬ statExists t m.Entry = true then
    .error ("entry file not found: " ++ m.Entry)
  else
    match m.Policies with
    | none => .error "policies are required"
    | some ps =>
      if pkgType m = "app" then
        match getObj ps "security" with
        | none => .error "policies.security is required for app packages"
        | some security =>
          match getObj security "network" with
          | none => .error "policies.security.network is required for app packages"
          | some _ => .ok ()
      else .ok ()


/-- Modelled from the spec: the complete list of manifest-validation
violations, in the order the rules are checked — the spec's Manifest
Validator contract requires "collect all violations, do not short-circuit on
the first"; this collector is the reference against which the code's
short-circuiting `ValidateManifest` is compared. -/
def specManifestViolations (m : ItpkgManifest) (t : SourceTree) : List String :=
  (if m.Name = "" then ["name is required"] else []) ++
  (if m.Version = "" then ["version is required"] else []) ++
  (if m.ItmlVersion = "" then ["itmlVersion is required"] else []) ++
  (if pkgType m = "app" ∧ m.Entry = "" then ["entry is required for app packages"] else []) ++
  (if pkgType m = "app" ∧ m.Entry ≠ "" ∧ ¬ statExists t m.Entry = true then
    ["entry file not found: " ++ m.Entry] else []) ++
  (match m.Policies with
   | none => ["policies are required"]
   | some ps =>
     if pkgType m = "app" then
       match getObj ps "security" with
       | none => ["policies.security is required for app packages"]
       | some security =>
         match getObj security "network" with
         | none => ["policies.security.network is required for app packages"]
         | some _ => []
     else [])


/-- `ValidateStructure` — validates the directory structure.  Only the
ERROR-level checks are returned; warnings are printed and do not fail. -/
def validateStructure (t : SourceTree) (m : ItpkgManifest) : Except String Unit :=
  let errs :=
    (if ¬ statExists t "intents" = true then ["required directory missing: intents"] else []) ++
    (if ¬ statExists t "policies" = true then ["required directory missing: policies"] else []) ++
    (if pkgType m = "app" ∧ m.Entry ≠ "" ∧ ¬ statExists t m.Entry = true then
      ["entry file not found: " ++ m.Entry] else [])
  if errs.isEmpty then .ok ()
  else .error ("validation errors: " ++ String.intercalate "; " errs)


/-! ## JSON re-serialization of the manifest (`json.MarshalIndent`) -/

def jsonStr (s : String) : String := "\"" ++ s ++ "\""


def renderStrArray : List String → String
  | [] => "[]"
  | xs => "[" ++ String.intercalate ", " (xs.map jsonStr) ++ "]"


mutual

def renderJVal : JVal → String
  | .obj fields => "\x7b" ++ renderFields fields ++ "\x7d"
  | .other => "null"

def renderFields : List (String × JVal) → String
  | [] => ""
  | [(k, v)] => jsonStr k ++ ": " ++ renderJVal v
  | (k, v) :: rest => jsonStr k ++ ": " ++ renderJVal v ++ ", " ++ renderFields rest

end


def renderSigMeta (s : SignatureMeta) : String :=
  "\x7b\"algorithm\": " ++ jsonStr s.Algorithm ++
    (if s.KeyID = "" then "" else ", \"keyId\": " ++ jsonStr s.KeyID) ++ "\x7d"


def renderMeta (mt : ItpkgMeta) : String :=
  match mt.Signature with
  | none => "\x7b\x7d"
  | some s => "\x7b\"signature\": " ++ renderSigMeta s ++ "\x7d"


/-- Model of `json.MarshalIndent(manifest, "", "  ")`: a deterministic
rendering of the parsed manifest with the struct's field order and
`omitempty` handling.  (String escaping and indentation details of the
`encoding/json` collaborator are simplified; the engine only relies on the
serialization being a deterministic function of the parsed manifest.) -/
def marshalManifest (m : ItpkgManifest) : String :=
  "\x7b\n  \"name\": " ++ jsonStr m.Name ++
  ",\n  \"version\": " ++ jsonStr m.Version ++
  ",\n  \"description\": " ++ jsonStr m.Description ++
  (if m.Entry = "" then "" else ",\n  \"entry\": " ++ jsonStr m.Entry) ++
  (if m.type' = "" then "" else ",\n  \"type\": " ++ jsonStr m.type') ++
  ",\n  \"itmlVersion\": " ++ jsonStr m.ItmlVersion ++
  ",\n  \"capabilities\": " ++ renderStrArray m.Capabilities ++
  ",\n  \"policies\": " ++
    (match m.Policies with
     | none => "null"
     | some ps => renderJVal (.obj ps)) ++
  (match m.Meta with
   | none => ""
   | some mt => ",\n  \"meta\": " ++ renderMeta mt) ++
  "\n\x7d"


/-! ## The archive builder (`CreateItpkg`) -/

/-- A tar entry as written by `addBytesToTar`: name, mode, and contents.
`addBytesToTar` constructs the `tar.Header` with only `Name`, `Mode` and
`Size` set, so the modification time is the zero time — recorded here so the
zero-timestamp guarantee is visible in the model. -/
structure TarEntry where
  Name : String
  Mode : Nat
  ModTime : Nat
  content : String
deriving DecidableEq


/-- `addBytesToTar` — writes a header (with zero modification time) and the
bytes. -/
def addBytesToTar (b : String) (mode : Nat) (name : String) : TarEntry :=
  { Name := name, Mode := mode, ModTime := 0, content := b }


/-- Component-lexicographic comparison of component lists (each component
compared as a string). -/
def compsLt : List String → List String → Bool
  | [], [] => false
  | [], _ :: _ => true
  | _ :: _, [] => false
  | a :: as, b :: bs => if strLtB a b then true else if strLtB b a then false else compsLt as bs


def pathComps (p : String) : List String := (splitOnChar '/' p.data).map String.mk


/-- The visiting order of `filepath.Walk`: it sorts the names in each
directory, which orders the visited file paths lexicographically by their
component sequences. -/
def walkLe (a b : String) : Bool := a == b || compsLt (pathComps a) (pathComps b)


/-- The files of the tree in the order `filepath.Walk` visits them, with
`itpkg.json` skipped (it was already added from the re-serialized manifest).
The output archive is assumed to lie outside the source tree, so the walk's
self-exclusion of the output file never fires. -/
def walkFiles (t : SourceTree) : List SrcFile :=
  sortLe (fun f g => walkLe f.path g.path) (t.files.filter (fun f => f.path ≠ "itpkg.json"))


/-- The accumulated checksum entries in walk order: the re-serialized
`itpkg.json` first, then every walked file. -/
def rawManifestEntries (t : SourceTree) : List ManifestEntry :=
  { Hash := sha256Hex (marshalManifest t.manifest), Path := "itpkg.json" } ::
    (walkFiles t).map (fun f => { Hash := sha256Hex f.content, Path := f.path })


/-- The checksum entries sorted by path
(`sort.Slice(manifestEntries, …Path < …Path)`). -/
def checksumEntries (t : SourceTree) : List ManifestEntry :=
  sortLe (fun a b => strLeB a.Path b.Path) (rawManifestEntries t)


/-- One `MANIFEST.sha256` line: digest, two spaces, path (as characters). -/
def manifestLineChars (e : ManifestEntry) : List Char :=
  e.Hash.data ++ ' ' :: ' ' :: e.Path.data


/-- The `MANIFEST.sha256` contents:
`strings.Join(lines, "\n") + "\n"`. -/
def manifestContent (t : SourceTree) : String :=
  String.mk (joinWithChar '\n' ((checksumEntries t).map manifestLineChars) ++ ['\n'])


instance {ε α : Type} [DecidableEq ε] [DecidableEq α] : DecidableEq (Except ε α) := fun x y =>
  match x, y with
  | .ok a, .ok b =>
    if h : a = b then isTrue (by rw [h]) else isFalse (by intro hc; cases hc; exact h rfl)
  | .error a, .error b =>
    if h : a = b then isTrue (by rw [h]) else isFalse (by intro hc; cases hc; exact h rfl)
  | .ok _, .error _ => isFalse (by intro hc; cases hc)
  | .error _, .ok _ => isFalse (by intro hc; cases hc)


/-- The outcome of `CreateItpkg`: the returned value, and the contents of the
file at `outputPath` (`none` when `os.Create` was never reached; otherwise
the tar entries written before returning — the deferred closes flush them to
the destination file even on an error path, and nothing removes the file). -/
structure BuildResult where
  result : Except String (List TarEntry)
  written : Option (List TarEntry)
deriving DecidableEq


/-- `CreateItpkg` — creates a signed `.itpkg` package with flat structure:
root contains `itpkg.json`, `MANIFEST.sha256`, `SIGNATURE`, and the project
files.  Signing keys are the modelled Ed25519 keys (`Nat`). -/
def createItpkg (t : SourceTree) (signKey : Option Nat) (unsignedAllowed : Bool) : BuildResult :=
  match validateManifest t.manifest t with
  | .error e => { result := .error ("manifest validation failed: " ++ e), written := none }
  | .ok () =>
  match validateStructure t t.manifest with
  | .error e => { result := .error ("structure validation failed: " ++ e), written := none }
  | .ok () =>
    let fileEntries := (walkFiles t).map (fun f => addBytesToTar f.content f.mode f.path)
    let preSig := addBytesToTar (marshalManifest t.manifest) 0o644 "itpkg.json" ::
      fileEntries ++ [addBytesToTar (manifestContent t) 0o644 "MANIFEST.sha256"]
    match signKey with
    | some k =>
      let es := preSig ++ [addBytesToTar (ed25519Sign k (manifestContent t)) 0o644 "SIGNATURE"]
      { result := .ok es, written := some es }
    | none =>
      if unsignedAllowed then
        let es := preSig ++ [addBytesToTar "UNSIGNED" 0o644 "SIGNATURE"]
        { result := .ok es, written := some es }
      else
        { result := .error "signing key not provided; use --unsigned to allow unsigned package",
          written := some preSig }


/-! ## The extractor (`UntarGz`) -/

/-- `UntarGz` — extracts the archive's entries into `destDir`.  Every entry
of the archives built here is a regular file; the target path is
`filepath.Join(destDir, hdr.Name)` and the file at the target is created and
written fully (`O_CREATE|O_WRONLY|O_TRUNC`, so a later entry with the same
target overwrites an earlier one).  No check rejects an entry whose cleaned
target escapes `destDir`.  The result is the sequence of (path, content)
writes performed. -/
def untarGz (destDir : String) (es : List TarEntry) : List (String × String) :=
  es.map (fun e => (cleanJoin destDir e.Name, e.content))


/-- The final file contents at `p` after a sequence of writes (later writes
win). -/
def lastWrite (writes : List (String × String)) (p : String) : Option String :=
  match writes with
  | [] => none
  | w :: rest =>
    match lastWrite rest p with
    | some c => some c
    | none => if w.1 == p then some w.2 else none


/-- The content of the tree's file at `p`. -/
def treeLookup (t : SourceTree) (p : String) : Option String :=
  (t.files.find? (fun f => f.path == p)).map (fun f => f.content)


/-- `p` resolves strictly below `root`. -/
def isStrictDescendant (root p : String) : Bool := (root ++ "/").isPrefixOf p


/-! ## The verifier

Modelled from the spec: the repository's own status document lists the
`intent verify` command as planned and the source contains no verifier, so
the Verifier of spec §4.4 is modelled here from its contract: a structural
re-check of the declared checksum manifest (strictly sorted, no duplicates,
no self-reference), a per-file re-hash collecting every `missing`/
`unexpected`/`modified` mismatch, and an Ed25519 signature check over the
exact declared checksum-manifest bytes, with the `"UNSIGNED"` sentinel
accepted only under an explicit opt-in.  (The deprecated legacy
symmetric-key mode of §4.4 step 4 is not modelled.) -/

/-- The identifiable kinds of integrity failure (spec §7). -/
inductive IntegrityKind where
  | malformed
  | missing
  | unexpected
  | modified
  | badSignature
  | unsignedRejected
deriving DecidableEq


/-- The content of the archive's entry named `p` (the last entry wins, as it
does for extraction). -/
def lookupEntry (es : List TarEntry) (p : String) : Option String :=
  match es with
  | [] => none
  | e :: rest =>
    match lookupEntry rest p with
    | some c => some c
    | none => if e.Name == p then some e.content else none


/-- Modelled from the spec: parse one checksum-manifest line
`<digest><two spaces><relative/path>` (the digest never contains a space;
the path may). -/
def parseLine (l : List Char) : Option ManifestEntry :=
  match l.dropWhile (fun c => c != ' ') with
  | ' ' :: ' ' :: p => some { Hash := String.mk (l.takeWhile (fun c => c != ' ')), Path := String.mk p }
  | _ => none


def mapOpt (f : α → Option β) : List α → Option (List β)
  | [] => some []
  | a :: as =>
    match f a, mapOpt f as with
    | some b, some bs => some (b :: bs)
    | _, _ => none


/-- Modelled from the spec: parse the checksum-manifest file — one line per
entry, LF-terminated with a trailing newline. -/
def parseChecksumManifest (s : String) : Option (List ManifestEntry) :=
  match (splitOnChar '
' s.data).reverse with
  | [] => none
  | last :: revLines =>
    if last.isEmpty && !revLines.isEmpty then mapOpt parseLine revLines.reverse
    else none


/-- Strictly sorted by path (which also rules out duplicate paths). -/
def entriesStrictlySorted : List ManifestEntry → Bool
  | [] => true
  | [_] => true
  | a :: b :: rest => strLtB a.Path b.Path && entriesStrictlySorted (b :: rest)


/-- Modelled from the spec: per-file re-hash, collecting every mismatch —
a `missing` per declared entry without a file, a `modified` per digest
mismatch, and an `unexpected` per undeclared file (the checksum-manifest and
signature files themselves are engine-owned and never declared). -/
def fileIssues (es : List TarEntry) (decl : List ManifestEntry) : List (IntegrityKind × String) :=
  concatMap (fun e =>
    match lookupEntry es e.Path with
    | none => [(IntegrityKind.missing, e.Path)]
    | some c => if sha256Hex c == e.Hash then [] else [(IntegrityKind.modified, e.Path)]) decl
  ++ ((es.map (fun e => e.Name)).filter (fun n =>
        !decl.any (fun e => e.Path == n) && n != "MANIFEST.sha256" && n != "SIGNATURE")).map
      (fun n => (IntegrityKind.unexpected, n))


/-- Modelled from the spec: `Verify` — structural re-check, per-file
re-hash, then the signature check over the exact declared checksum-manifest
bytes; any failure makes the whole archive untrusted. -/
def verifyArchive (es : List TarEntry) (acceptUnsigned : Bool) (pubKey : Nat) :
    Except (List (IntegrityKind × String)) Unit :=
  match lookupEntry es "MANIFEST.sha256" with
  | none => .error [(IntegrityKind.malformed, "MANIFEST.sha256")]
  | some s =>
    match parseChecksumManifest s with
    | none => .error [(IntegrityKind.malformed, "MANIFEST.sha256")]
    | some decl =>
      if !(entriesStrictlySorted decl && decl.all (fun e => e.Path != "MANIFEST.sha256")) then
        .error [(IntegrityKind.malformed, "MANIFEST.sha256")]
      else
        match fileIssues es decl with
        | [] =>
          match lookupEntry es "SIGNATURE" with
          | none => .error [(IntegrityKind.malformed, "SIGNATURE")]
          | some g =>
            if g == "UNSIGNED" then
              if acceptUnsigned then .ok ()
              else .error [(IntegrityKind.unsignedRejected, "SIGNATURE")]
            else if ed25519Verify pubKey s g then .ok ()
            else .error [(IntegrityKind.badSignature, "SIGNATURE")]
        | issues => .error issues


/-- Tampering with the archive: replace the content of every entry named
`p` (a single byte flip is one instance of such a replacement). -/
def tamperEntry (es : List TarEntry) (p : String) (c : String) : List TarEntry :=
  es.map (fun e => if e.Name == p then { e with content := c } else e)


/-! ## Concrete inputs used by the scenario claims -/

/-- The §8 scenario manifest exactly as written: name `@scope/demo`, version
`0.1.0`, kind Lib — and nothing else. -/
def demoManifestBare : ItpkgManifest :=
  { Name := "@scope/demo", Version := "0.1.0", Description := "", Entry := "",
    type' := "lib", ItmlVersion := "", Capabilities := [], Policies := none, Meta := none }


/-- The scenario manifest completed with the fields `ValidateManifest`
actually requires of every package: a non-empty `itmlVersion` and a
`policies` object. -/
def demoManifest : ItpkgManifest :=
  { demoManifestBare with ItmlVersion := "1.0", Policies := some [] }


def demoFiles : List SrcFile :=
  [ { path := "intents/hello.itml", mode := 0o644, content := "intent hello" },
    { path := "policies/security.itml", mode := 0o644, content := "policy security" } ]


def demoTreeBare : SourceTree :=
  { manifest := demoManifestBare, files := demoFiles, dirs := ["intents", "policies"] }


def demoTree : SourceTree :=
  { manifest := demoManifest, files := demoFiles, dirs := ["intents", "policies"] }


/-- A source tree that additionally contains its own file named
`MANIFEST.sha256`. -/
def poisonedTree : SourceTree :=
  { manifest := demoManifest,
    files := demoFiles ++ [{ path := "MANIFEST.sha256", mode := 0o644, content := "fake" }],
    dirs := ["intents", "policies"] }


/-- The all-empty manifest: violates several validation rules at once. -/
def emptyManifest : ItpkgManifest :=
  { Name := "", Version := "", Description := "", Entry := "", type' := "",
    ItmlVersion := "", Capabilities := [], Policies := none, Meta := none }


def emptyTree : SourceTree := { manifest := emptyManifest, files := [], dirs := [] }


def linesOf (l : List ManifestEntry) : List (List Char) := l.map manifestLineChars

/-! ## Theorems -/


theorem dChar_inj_lt {a b : Nat} (ha : a < 10) (hb : b < 10)
    (h : dChar a = dChar b) : a = b := by
  interval_cases a <;> interval_cases b <;> simp_all [dChar]


theorem dChar_ne_space {d : Nat} (hd : d < 10) : dChar d ≠ ' ' := by
  interval_cases d <;> simp [dChar]


theorem dChar_ne_newline {d : Nat} (hd : d < 10) : dChar d ≠ '\n' := by
  interval_cases d <;> simp [dChar]


theorem dChar_ne_colon {d : Nat} (hd : d < 10) : dChar d ≠ ':' := by
  interval_cases d <;> simp [dChar]


theorem ofD_natDigits : ∀ (fuel n : Nat), n < 10 ^ fuel → ofD (natDigits fuel n) = n := by
  intro fuel
  induction fuel with
  | zero =>
    intro n h
    interval_cases n
    rfl
  | succ fuel ih =>
    intro n h
    by_cases hn : n = 0
    · simp [natDigits, hn, ofD]
    · have hdiv : n / 10 < 10 ^ fuel := by
        rw [Nat.div_lt_iff_lt_mul (by norm_num)]
        calc n < 10 ^ (fuel + 1) := h
          _ = 10 ^ fuel * 10 := by ring
      simp only [natDigits, if_neg hn, ofD, ih (n / 10) hdiv]
      omega


theorem natDigits_length_le : ∀ (fuel n : Nat), (natDigits fuel n).length ≤ fuel := by
  intro fuel
  induction fuel with
  | zero => intro n; simp [natDigits]
  | succ fuel ih =>
    intro n
    by_cases hn : n = 0
    · simp [natDigits, hn]
    · simp only [natDigits, if_neg hn, List.length_cons]
      exact Nat.succ_le_succ (ih (n / 10))


theorem natDigits_lt : ∀ (fuel n : Nat), ∀ d ∈ natDigits fuel n, d < 10 := by
  intro fuel
  induction fuel with
  | zero => intro n d hd; simp [natDigits] at hd
  | succ fuel ih =>
    intro n d hd
    by_cases hn : n = 0
    · simp [natDigits, hn] at hd
    · simp only [natDigits, if_neg hn, List.mem_cons] at hd
      rcases hd with rfl | hd
      · exact Nat.mod_lt n (by norm_num)
      · exact ih (n / 10) d hd


theorem ofD_append : ∀ (a b : List Nat), ofD (a ++ b) = ofD a + 10 ^ a.length * ofD b := by
  intro a b
  induction a with
  | nil => simp [ofD]
  | cons d ds ih =>
    simp only [List.cons_append, ofD, List.append_eq, ih, List.length_cons]
    ring


theorem ofD_replicate_zero (k : Nat) : ofD (List.replicate k 0) = 0 := by
  induction k with
  | zero => rfl
  | succ k ih => simp [List.replicate_succ, ofD, ih]


theorem digitsFW_length {n : Nat} (_h : n < 10 ^ 10) : (digitsFW n).length = 10 := by
  have hlen := natDigits_length_le 10 n
  simp only [digitsFW, List.length_map, List.length_append, List.length_replicate]
  omega


theorem map_dChar_inj : ∀ {l₁ l₂ : List Nat}, (∀ d ∈ l₁, d < 10) → (∀ d ∈ l₂, d < 10) →
    l₁.map dChar = l₂.map dChar → l₁ = l₂ := by
  intro l₁
  induction l₁ with
  | nil =>
    intro l₂ _ _ h
    cases l₂ <;> simp_all
  | cons a as ih =>
    intro l₂ h₁ h₂ h
    cases l₂ with
    | nil => simp at h
    | cons b bs =>
      simp only [List.map_cons, List.cons.injEq] at h
      have hab := dChar_inj_lt (h₁ a (by simp)) (h₂ b (by simp)) h.1
      have hrest := ih (fun d hd => h₁ d (by simp [hd])) (fun d hd => h₂ d (by simp [hd])) h.2
      rw [hab, hrest]


theorem digitsFW_inj {a b : Nat} (ha : a < 10 ^ 10) (hb : b < 10 ^ 10)
    (h : digitsFW a = digitsFW b) : a = b := by
  unfold digitsFW at h
  have hadig : ∀ d ∈ natDigits 10 a ++ List.replicate (10 - (natDigits 10 a).length) 0, d < 10 := by
    intro d hd
    rcases List.mem_append.mp hd with h' | h'
    · exact natDigits_lt 10 a d h'
    · have := List.eq_of_mem_replicate h'
      omega
  have hbdig : ∀ d ∈ natDigits 10 b ++ List.replicate (10 - (natDigits 10 b).length) 0, d < 10 := by
    intro d hd
    rcases List.mem_append.mp hd with h' | h'
    · exact natDigits_lt 10 b d h'
    · have := List.eq_of_mem_replicate h'
      omega
  have heq := map_dChar_inj hadig hbdig h
  have := congrArg ofD heq
  rwa [ofD_append, ofD_append, ofD_replicate_zero, ofD_replicate_zero,
    Nat.mul_zero, Nat.add_zero, Nat.mul_zero, Nat.add_zero,
    ofD_natDigits 10 a ha, ofD_natDigits 10 b hb] at this


theorem digitsFW_mem_digit {n : Nat} {c : Char} (h : c ∈ digitsFW n) :
    ∃ d, d < 10 ∧ c = dChar d := by
  unfold digitsFW at h
  rcases List.mem_map.mp h with ⟨d, hd, rfl⟩
  rcases List.mem_append.mp hd with h' | h'
  · exact ⟨d, natDigits_lt 10 n d h', rfl⟩
  · exact ⟨d, by have := List.eq_of_mem_replicate h'; omega, rfl⟩


theorem concatMap_inj {f : α → List β} {w : Nat} (hw : 0 < w)
    (hlen : ∀ a, (f a).length = w) (hinj : ∀ a b, f a = f b → a = b) :
    ∀ {l₁ l₂ : List α}, concatMap f l₁ = concatMap f l₂ → l₁ = l₂ := by
  intro l₁
  induction l₁ with
  | nil =>
    intro l₂ h
    cases l₂ with
    | nil => rfl
    | cons b bs =>
      exfalso
      have : (concatMap f []).length = (concatMap f (b :: bs)).length := by rw [h]
      simp [concatMap, hlen b] at this
      omega
  | cons a as ih =>
    intro l₂ h
    cases l₂ with
    | nil =>
      exfalso
      have : (concatMap f (a :: as)).length = (concatMap f []).length := by rw [h]
      simp [concatMap, hlen a] at this
      omega
    | cons b bs =>
      simp only [concatMap] at h
      have hl : (f a).length = (f b).length := by rw [hlen a, hlen b]
      obtain ⟨h₁, h₂⟩ := List.append_inj h hl
      rw [hinj a b h₁, ih h₂]


theorem char_toNat_lt (c : Char) : c.toNat < 10 ^ 10 := by
  have h : c.toNat < 2 ^ 32 := UInt32.toNat_lt c.val
  omega


theorem sha256Hex_inj {s₁ s₂ : String} (h : sha256Hex s₁ = sha256Hex s₂) :
    s₁ = s₂ := by
  have hdata : concatMap (fun c => digitsFW c.toNat) s₁.data
      = concatMap (fun c => digitsFW c.toNat) s₂.data := congrArg String.data h
  have hchars : s₁.data = s₂.data := by
    refine concatMap_inj (w := 10) (by norm_num) ?_ ?_ hdata
    · intro c
      exact digitsFW_length (char_toNat_lt c)
    · intro a b hab
      have hn := digitsFW_inj (char_toNat_lt a) (char_toNat_lt b) hab
      exact Char.ext (UInt32.ext hn)
  cases s₁
  cases s₂
  exact congrArg String.mk hchars


theorem mem_concatMap_digitsFW {c : Char} :
    ∀ {l : List Char}, c ∈ concatMap (fun c => digitsFW c.toNat) l →
      ∃ d, d < 10 ∧ c = dChar d := by
  intro l
  induction l with
  | nil => intro h; simp [concatMap] at h
  | cons a as ih =>
    intro h
    rcases List.mem_append.mp h with h' | h'
    · exact digitsFW_mem_digit h'
    · exact ih h'


theorem sha256Hex_mem {s : String} {c : Char} (h : c ∈ (sha256Hex s).data) :
    ∃ d, d < 10 ∧ c = dChar d :=
  mem_concatMap_digitsFW (l := s.data) h


theorem sha256Hex_not_space {s : String} {c : Char} (h : c ∈ (sha256Hex s).data) :
    c ≠ ' ' := by
  obtain ⟨d, hd, rfl⟩ := sha256Hex_mem h
  exact dChar_ne_space hd


theorem sha256Hex_not_newline {s : String} {c : Char} (h : c ∈ (sha256Hex s).data) :
    c ≠ '\n' := by
  obtain ⟨d, hd, rfl⟩ := sha256Hex_mem h
  exact dChar_ne_newline hd


theorem splitOnChar_ne_nil (sep : Char) : ∀ l : List Char, splitOnChar sep l ≠ [] := by
  intro l
  induction l with
  | nil => simp [splitOnChar]
  | cons c cs ih =>
    by_cases h : c = sep
    · simp [splitOnChar, h]
    · simp only [splitOnChar, if_neg h]
      cases hs : splitOnChar sep cs <;> simp


theorem splitOnChar_of_not_mem {sep : Char} : ∀ {l : List Char}, sep ∉ l →
    splitOnChar sep l = [l] := by
  intro l
  induction l with
  | nil => intro _; rfl
  | cons c cs ih =>
    intro h
    have hc : c ≠ sep := fun hc => h (by simp [hc])
    have hcs : sep ∉ cs := fun hm => h (by simp [hm])
    simp only [splitOnChar, if_neg hc, ih hcs]


theorem splitOnChar_append (sep : Char) : ∀ (x y : List Char),
    splitOnChar sep (x ++ sep :: y) = splitOnChar sep x ++ splitOnChar sep y := by
  intro x y
  induction x with
  | nil => simp [splitOnChar]
  | cons c cs ih =>
    by_cases h : c = sep
    · simp only [List.cons_append, splitOnChar, if_pos h, List.append_eq, ih]
    · simp only [List.cons_append, splitOnChar, if_neg h, List.append_eq, ih]
      cases hs : splitOnChar sep cs with
      | nil => exact absurd hs (splitOnChar_ne_nil sep cs)
      | cons l ls => simp [hs]


theorem joinWithChar_splitOnChar (sep : Char) : ∀ l : List Char,
    joinWithChar sep (splitOnChar sep l) = l := by
  intro l
  induction l with
  | nil => rfl
  | cons c cs ih =>
    by_cases h : c = sep
    · subst h
      simp only [splitOnChar, if_pos rfl]
      cases hs : splitOnChar c cs with
      | nil => exact absurd hs (splitOnChar_ne_nil c cs)
      | cons l ls =>
        rw [hs] at ih
        simpa [joinWithChar] using ih
    · simp only [splitOnChar, if_neg h]
      cases hs : splitOnChar sep cs with
      | nil => exact absurd hs (splitOnChar_ne_nil sep cs)
      | cons l ls =>
        rw [hs] at ih
        cases ls with
        | nil => simpa [joinWithChar] using ih
        | cons l' ls' => simpa [joinWithChar] using ih


theorem splitOnChar_inj {sep : Char} {l₁ l₂ : List Char}
    (h : splitOnChar sep l₁ = splitOnChar sep l₂) : l₁ = l₂ := by
  have := congrArg (joinWithChar sep) h
  rwa [joinWithChar_splitOnChar, joinWithChar_splitOnChar] at this


theorem natChars_inj {a b : Nat} (h : natChars a = natChars b) : a = b := by
  have hd : natDigits a a = natDigits b b :=
    map_dChar_inj (fun _ hd => natDigits_lt a a _ hd)
      (fun _ hd => natDigits_lt b b _ hd) h
  have := congrArg ofD hd
  rwa [ofD_natDigits a a (Nat.lt_pow_self (by norm_num) a),
    ofD_natDigits b b (Nat.lt_pow_self (by norm_num) b)] at this


theorem natChars_no_colon {n : Nat} {c : Char} (h : c ∈ natChars n) : c ≠ ':' := by
  rcases List.mem_map.mp h with ⟨d, hd, rfl⟩
  exact dChar_ne_colon (natDigits_lt n n d hd)


theorem ed25519Sign_inj {k₁ k₂ : Nat} {m₁ m₂ : String}
    (h : ed25519Sign k₁ m₁ = ed25519Sign k₂ m₂) : k₁ = k₂ ∧ m₁ = m₂ := by
  have hdata : 's' :: 'i' :: 'g' :: ':' :: natChars k₁ ++ ':' :: concatMap (fun c => digitsFW c.toNat) m₁.data
      = 's' :: 'i' :: 'g' :: ':' :: natChars k₂ ++ ':' :: concatMap (fun c => digitsFW c.toNat) m₂.data :=
    congrArg String.data h
  simp only [List.cons_append, List.cons.injEq, true_and] at hdata
  have hsplit := congrArg (splitOnChar ':') hdata
  rw [splitOnChar_append, splitOnChar_append,
    splitOnChar_of_not_mem (fun hm => natChars_no_colon hm rfl),
    splitOnChar_of_not_mem (fun hm => natChars_no_colon hm rfl),
    splitOnChar_of_not_mem (l := concatMap (fun c => digitsFW c.toNat) m₁.data)
      (fun hm => by
        obtain ⟨d, hd, he⟩ := mem_concatMap_digitsFW hm
        exact dChar_ne_colon hd he.symm),
    splitOnChar_of_not_mem (l := concatMap (fun c => digitsFW c.toNat) m₂.data)
      (fun hm => by
        obtain ⟨d, hd, he⟩ := mem_concatMap_digitsFW hm
        exact dChar_ne_colon hd he.symm)] at hsplit
  simp only [List.cons_append, List.nil_append, List.cons.injEq, and_true] at hsplit
  obtain ⟨hk, hm⟩ := hsplit
  refine ⟨natChars_inj hk, @sha256Hex_inj m₁ m₂ ?_⟩
  exact congrArg String.mk hm


theorem ed25519Sign_ne_unsigned (k : Nat) (m : String) :
    ed25519Sign k m ≠ "UNSIGNED" := by
  intro h
  have hh : (ed25519Sign k m).data.head? = some 's' := rfl
  rw [h] at hh
  exact absurd hh (by decide)


theorem cleanState_pushes : ∀ (l acc : List (List Char)),
    (∀ c ∈ l, ¬(c = [] ∨ c = ['.']) ∧ c ≠ ['.', '.']) →
    cleanState acc l = l.reverse ++ acc := by
  intro l
  induction l with
  | nil => intro acc _; simp [cleanState]
  | cons c cs ih =>
    intro acc h
    have hc := h c (by simp)
    simp only [cleanState, if_neg hc.1, if_neg hc.2]
    rw [ih _ (fun d hd => h d (by simp [hd]))]
    simp


theorem data_append (a b : String) : (a ++ b).data = a.data ++ b.data := rfl


theorem mk_data (s : String) : String.mk s.data = s := by
  cases s
  rfl


theorem data_join_slash (dir p : String) :
    (dir ++ "/" ++ p).data = dir.data ++ '/' :: p.data := by
  rw [data_append, data_append]
  have : ("/" : String).data = ['/'] := rfl
  rw [this]
  simp


/-- The components of a well-formed path pass the `cleanState` push test. -/
theorem compOk_clean {c : List Char} (h : compOk c = true) :
    ¬(c = [] ∨ c = ['.']) ∧ c ≠ ['.', '.'] := by
  simp only [compOk, Bool.and_eq_true, Bool.not_eq_true', decide_eq_true_eq, ne_eq] at h
  constructor
  · rintro (h' | h')
    · subst h'
      simp at h
    · exact h.1.1.2 h'
  · exact h.1.2


/-- Joining a well-formed relative path under a well-formed relative
destination just concatenates them. -/
theorem cleanJoin_of_ok {dir p : String} (hdir : pathOk dir = true) (hp : pathOk p = true) :
    cleanJoin dir p = dir ++ "/" ++ p := by
  have hcomps : ∀ c ∈ splitOnChar '/' (dir.data ++ '/' :: p.data),
      ¬(c = [] ∨ c = ['.']) ∧ c ≠ ['.', '.'] := by
    intro c hc
    rw [splitOnChar_append] at hc
    apply compOk_clean
    rcases List.mem_append.mp hc with h' | h'
    · have := (Bool.and_eq_true _ _ |>.mp hdir).2
      exact List.all_eq_true.mp this c h'
    · have := (Bool.and_eq_true _ _ |>.mp hp).2
      exact List.all_eq_true.mp this c h'
  have htarget : String.mk (dir.data ++ '/' :: p.data) = dir ++ "/" ++ p := by
    rw [← data_join_slash, mk_data]
  have hemp : ((splitOnChar '/' (dir.data ++ '/' :: p.data)).reverse).isEmpty = false := by
    cases hsp : splitOnChar '/' (dir.data ++ '/' :: p.data) with
    | nil => exact absurd hsp (splitOnChar_ne_nil _ _)
    | cons x xs => simp
  unfold cleanJoin
  rw [cleanState_pushes _ [] hcomps]
  simp only [List.append_nil, hemp, Bool.false_eq_true, if_false]
  rw [List.reverse_reverse, joinWithChar_splitOnChar]
  exact htarget


theorem charEq_of_toNat {a b : Char} (h : a.toNat = b.toNat) : a = b :=
  Char.ext (UInt32.ext h)


theorem listLtB_irrefl : ∀ x : List Char, listLtB x x = false := by
  intro x
  induction x with
  | nil => rfl
  | cons a as ih => simp [listLtB, ih]


theorem listLtB_asymm : ∀ {x y : List Char}, listLtB x y = true → listLtB y x = false := by
  intro x
  induction x with
  | nil =>
    intro y h
    cases y with
    | nil => simp [listLtB] at h
    | cons b bs => rfl
  | cons a as ih =>
    intro y h
    cases y with
    | nil => simp [listLtB] at h
    | cons b bs =>
      simp only [listLtB] at h ⊢
      by_cases hab : a.toNat < b.toNat
      · have hba : ¬ b.toNat < a.toNat := by omega
        simp [hab, hba]
      · by_cases hba : b.toNat < a.toNat
        · simp [hab, hba] at h
        · simp only [if_neg hab, if_neg hba] at h ⊢
          exact ih h


theorem listLtB_trans : ∀ {x y z : List Char},
    listLtB x y = true → listLtB y z = true → listLtB x z = true := by
  intro x
  induction x with
  | nil =>
    intro y z hxy hyz
    cases y with
    | nil => simp [listLtB] at hxy
    | cons b bs =>
      cases z with
      | nil => simp [listLtB] at hyz
      | cons c cs => rfl
  | cons a as ih =>
    intro y z hxy hyz
    cases y with
    | nil => simp [listLtB] at hxy
    | cons b bs =>
      cases z with
      | nil => simp [listLtB] at hyz
      | cons c cs =>
        simp only [listLtB] at hxy hyz ⊢
        by_cases hab : a.toNat < b.toNat
        · by_cases hbc : b.toNat < c.toNat
          · have : a.toNat < c.toNat := by omega
            simp [this]
          · by_cases hcb : c.toNat < b.toNat
            · simp [hbc, hcb] at hyz
            · have hbceq : b.toNat = c.toNat := by omega
              have : a.toNat < c.toNat := by omega
              simp [this]
        · by_cases hba : b.toNat < a.toNat
          · simp [hab, hba] at hxy
          · have habeq : a.toNat = b.toNat := by omega
            simp only [if_neg hab, if_neg hba] at hxy
            by_cases hbc : b.toNat < c.toNat
            · have : a.toNat < c.toNat := by omega
              simp [this]
            · by_cases hcb : c.toNat < b.toNat
              · simp [hbc, hcb] at hyz
              · simp only [if_neg hbc, if_neg hcb] at hyz
                have hac : ¬ a.toNat < c.toNat := by omega
                have hca : ¬ c.toNat < a.toNat := by omega
                simp only [if_neg hac, if_neg hca]
                exact ih hxy hyz


theorem listLtB_trichotomy : ∀ x y : List Char,
    x = y ∨ listLtB x y = true ∨ listLtB y x = true := by
  intro x
  induction x with
  | nil =>
    intro y
    cases y with
    | nil => left; rfl
    | cons b bs => right; left; rfl
  | cons a as ih =>
    intro y
    cases y with
    | nil => right; right; rfl
    | cons b bs =>
      by_cases hab : a.toNat < b.toNat
      · right; left; simp [listLtB, hab]
      · by_cases hba : b.toNat < a.toNat
        · right; right; simp [listLtB, hba]
        · have heq : a = b := charEq_of_toNat (by omega)
          subst heq
          rcases ih bs with rfl | h | h
          · left; rfl
          · right; left; simp [listLtB, h, hab, hba]
          · right; right; simp [listLtB, h, hab, hba]


theorem strLtB_irrefl (a : String) : strLtB a a = false := listLtB_irrefl a.data


theorem strLtB_asymm {a b : String} (h : strLtB a b = true) : strLtB b a = false :=
  listLtB_asymm h


theorem strLtB_trans {a b c : String} (h₁ : strLtB a b = true) (h₂ : strLtB b c = true) :
    strLtB a c = true := listLtB_trans h₁ h₂


theorem strLtB_trichotomy (a b : String) :
    a = b ∨ strLtB a b = true ∨ strLtB b a = true := by
  rcases listLtB_trichotomy a.data b.data with h | h | h
  · left
    cases a
    cases b
    exact congrArg String.mk h
  · right; left; exact h
  · right; right; exact h


theorem strLeB_total (a b : String) : strLeB a b = true ∨ strLeB b a = true := by
  rcases strLtB_trichotomy a b with rfl | h | h
  · left; simp [strLeB]
  · left; simp [strLeB, h]
  · right; simp [strLeB, h]


theorem strLeB_trans {a b c : String} (h₁ : strLeB a b = true) (h₂ : strLeB b c = true) :
    strLeB a c = true := by
  simp only [strLeB, Bool.or_eq_true, beq_iff_eq] at h₁ h₂ ⊢
  rcases h₁ with rfl | h₁
  · exact h₂
  · rcases h₂ with rfl | h₂
    · right; exact h₁
    · right; exact strLtB_trans h₁ h₂


theorem strLeB_antisymm {a b : String} (h₁ : strLeB a b = true) (h₂ : strLeB b a = true) :
    a = b := by
  simp only [strLeB, Bool.or_eq_true, beq_iff_eq] at h₁ h₂
  rcases h₁ with rfl | h₁
  · rfl
  · rcases h₂ with rfl | h₂
    · rfl
    · have := strLtB_asymm h₁
      rw [h₂] at this
      exact Bool.noConfusion this


theorem strLeB_of_strLtB {a b : String} (h : strLtB a b = true) : strLeB a b = true := by
  simp [strLeB, h]


theorem strLtB_of_strLeB_ne {a b : String} (h : strLeB a b = true) (hne : a ≠ b) :
    strLtB a b = true := by
  simp only [strLeB, Bool.or_eq_true, beq_iff_eq] at h
  exact h.resolve_left hne


theorem insertLe_perm (le : α → α → Bool) (a : α) :
    ∀ l : List α, (insertLe le a l).Perm (a :: l) := by
  intro l
  induction l with
  | nil => simp [insertLe]
  | cons b bs ih =>
    by_cases h : le a b
    · simp [insertLe, h]
    · simp only [insertLe, if_neg h]
      exact (ih.cons b).trans (List.Perm.swap a b bs)


theorem sortLe_perm (le : α → α → Bool) : ∀ l : List α, (sortLe le l).Perm l := by
  intro l
  induction l with
  | nil => simp [sortLe]
  | cons a as ih =>
    show (insertLe le a (sortLe le as)).Perm (a :: as)
    exact (insertLe_perm le a _).trans (ih.cons a)


theorem insertLe_sorted {le : α → α → Bool}
    (htot : ∀ a b, le a b = true ∨ le b a = true)
    (htr : ∀ a b c, le a b = true → le b c = true → le a c = true) (a : α) :
    ∀ {l : List α}, l.Pairwise (fun x y => le x y = true) →
      (insertLe le a l).Pairwise (fun x y => le x y = true) := by
  intro l
  induction l with
  | nil => intro _; simp [insertLe]
  | cons b bs ih =>
    intro h
    rcases List.pairwise_cons.mp h with ⟨hb, hbs⟩
    by_cases hab : le a b = true
    · simp only [insertLe, if_pos hab]
      refine List.pairwise_cons.mpr ⟨?_, h⟩
      intro x hx
      rcases List.mem_cons.mp hx with rfl | hx
      · exact hab
      · exact htr a b x hab (hb x hx)
    · simp only [insertLe, if_neg hab]
      have hba : le b a = true := (htot a b).resolve_left hab
      refine List.pairwise_cons.mpr ⟨?_, ih hbs⟩
      intro x hx
      have := (insertLe_perm le a bs).mem_iff.mp hx
      rcases List.mem_cons.mp this with rfl | hx'
      · exact hba
      · exact hb x hx'


theorem sortLe_sorted {le : α → α → Bool}
    (htot : ∀ a b, le a b = true ∨ le b a = true)
    (htr : ∀ a b c, le a b = true → le b c = true → le a c = true) :
    ∀ l : List α, (sortLe le l).Pairwise (fun x y => le x y = true) := by
  intro l
  induction l with
  | nil => simp [sortLe]
  | cons a as ih => exact insertLe_sorted htot htr a ih


/-- Two sorted arrangements of the same multiset of entries with pairwise
distinct keys are equal. -/
theorem eq_of_perm_of_sorted_keys {le : α → α → Bool} {key : α → β}
    (hanti : ∀ a b, le a b = true → le b a = true → key a = key b)
    {l₁ l₂ : List α} (hperm : l₁.Perm l₂)
    (hs₁ : l₁.Pairwise (fun x y => le x y = true))
    (hs₂ : l₂.Pairwise (fun x y => le x y = true))
    (hnd : (l₁.map key).Nodup) : l₁ = l₂ := by
  have hnd₂ : (l₂.map key).Nodup := ((hperm.map key).nodup_iff).mp hnd
  have hstrict₁ : l₁.Pairwise (fun x y => le x y = true ∧ key x ≠ key y) :=
    hs₁.and (List.pairwise_map.mp hnd)
  have hstrict₂ : l₂.Pairwise (fun x y => le x y = true ∧ key x ≠ key y) :=
    hs₂.and (List.pairwise_map.mp hnd₂)
  have : IsAntisymm α (fun x y => le x y = true ∧ key x ≠ key y) := by
    constructor
    intro a b hab hba
    exact absurd (hanti a b hab.1 hba.1) hab.2
  exact List.eq_of_perm_of_sorted hperm hstrict₁ hstrict₂


/-! ## C1 — the extractor has no path-escape guard -/

/-- C1: the spec requires `Extract` to reject any entry whose resolved path
is not a strict descendant of the destination root.  `UntarGz` has no such
check: extracting an archive whose single entry is named `../evil` into
`dest` writes the file at `evil` — outside `dest` — and reports no error.
This theorem evaluates the extractor at that failing input. -/
theorem c1_extract_no_escape_guard :
    untarGz "dest" [{ Name := "../evil", Mode := 0o644, ModTime := 0, content := "boom" }]
        = [("evil", "boom")] ∧
      isStrictDescendant "dest" "evil" = false := by
  decide


/-! ## C6 — manifest validation short-circuits on the first violation -/

/-- C6 counterexample: on the all-empty manifest five rules are violated at
once, but `ValidateManifest` reports only the first (`name is required`) —
it does not return every violation found. -/
theorem c6_counterexample :
    validateManifest emptyManifest emptyTree = Except.error "name is required" ∧
      specManifestViolations emptyManifest emptyTree =
        ["name is required", "version is required", "itmlVersion is required",
         "entry is required for app packages", "policies are required"] := by
  decide


/-- C6 amended: `ValidateManifest` returns exactly the first violation in
the fixed check order (name, version, itmlVersion, entry required, entry
exists, policies present, security object, network object), rather than the
complete set. -/
theorem c6_first_violation_only (m : ItpkgManifest) (t : SourceTree) :
    validateManifest m t =
      match specManifestViolations m t with
      | [] => Except.ok ()
      | v :: _ => Except.error v := by
  unfold validateManifest specManifestViolations
  cases hp : m.Policies with
  | none => split_ifs <;> simp [hp]
  | some ps =>
    cases hs : getObj ps "security" with
    | none => split_ifs <;> simp [hp, hs]
    | some security =>
      cases hn : getObj security "network" with
      | none => split_ifs <;> simp [hp, hs, hn]
      | some nw => split_ifs <;> simp [hp, hs, hn]


/-! ## C9 — the §8 scenario -/

/-- C9 counterexample: with the scenario manifest exactly as the spec lists
it (name, version, kind Lib and nothing more), `Build` does not succeed —
manifest validation rejects the empty `itmlVersion` before anything is
written. -/
theorem c9_counterexample :
    createItpkg demoTreeBare none true =
      { result := Except.error "manifest validation failed: itmlVersion is required",
        written := none } := by
  decide


/-- C9 amended: with the scenario manifest completed by a non-empty
`itmlVersion` and a `policies` object (which `ValidateManifest` requires of
every package), `Build` succeeds and the checksum manifest has exactly 3
entries — the re-serialized manifest file included, the checksum-manifest
file excluded, the two project files included — sorted with
`intents/hello.itml` before `policies/security.itml`. -/
theorem c9_scenario :
    (createItpkg demoTree none true).result.isOk = true ∧
      (checksumEntries demoTree).map (fun e => e.Path)
        = ["intents/hello.itml", "itpkg.json", "policies/security.itml"] ∧
      (checksumEntries demoTree).length = 3 := by
  decide


/-! ## C7 — a failed build can leave bytes at the destination -/

/-- C7 amended: when manifest or structure validation fails, `CreateItpkg`
returns before `os.Create`, so nothing is written to the destination; but
when validation passes and no signing key is supplied with unsigned output
not allowed, the error return happens after the project files and
`MANIFEST.sha256` have already been written — a partial archive (without
`SIGNATURE`) is left at the destination path. -/
theorem c7_no_bytes_only_for_validation_failures (t : SourceTree) (k : Option Nat) (u : Bool) :
    ((validateManifest t.manifest t).isOk = false ∨
        (validateStructure t t.manifest).isOk = false →
      (createItpkg t k u).written = none) ∧
    ((validateManifest t.manifest t).isOk = true →
      (validateStructure t t.manifest).isOk = true →
      k = none → u = false →
      (createItpkg t k u).result
          = Except.error "signing key not provided; use --unsigned to allow unsigned package" ∧
        (createItpkg t k u).written
          = some (addBytesToTar (marshalManifest t.manifest) 0o644 "itpkg.json" ::
              (walkFiles t).map (fun f => addBytesToTar f.content f.mode f.path)
              ++ [addBytesToTar (manifestContent t) 0o644 "MANIFEST.sha256"])) := by
  constructor
  · intro h
    unfold createItpkg
    cases hv : validateManifest t.manifest t with
    | error e => rfl
    | ok _ =>
      cases hst : validateStructure t t.manifest with
      | error e => rfl
      | ok _ =>
        exfalso
        rcases h with h | h
        · rw [hv] at h
          exact Bool.noConfusion h
        · rw [hst] at h
          exact Bool.noConfusion h
  · intro hv hst hk hu
    subst hk
    subst hu
    unfold createItpkg
    cases hv' : validateManifest t.manifest t with
    | error e =>
      rw [hv'] at hv
      exact absurd hv Bool.noConfusion
    | ok _ =>
      cases hst' : validateStructure t t.manifest with
      | error e =>
        rw [hst'] at hst
        exact absurd hst Bool.noConfusion
      | ok _ => exact ⟨rfl, rfl⟩


/-- C7 witness: a concrete valid tree built with no key and no unsigned
opt-out fails, yet leaves a non-empty partial archive at the destination. -/
theorem c7_witness :
    (createItpkg demoTree none false).result
        = Except.error "signing key not provided; use --unsigned to allow unsigned package" ∧
      (createItpkg demoTree none false).written ≠ none := by
  have h := (c7_no_bytes_only_for_validation_failures demoTree none false).2
    (by decide) (by decide) rfl rfl
  exact ⟨h.1, by rw [h.2]; simp⟩


/-- C7 counterexample: the same concrete failing build leaves bytes at the
destination path, refuting "no archive bytes are written to or left at the
destination path" for the signing-failure case. -/
theorem c7_counterexample :
    (createItpkg demoTree none false).result.isOk = false ∧
      (createItpkg demoTree none false).written ≠ none ∧
      (createItpkg demoTree none false).written ≠ some [] := by
  decide


/-! ## C5 — checksum-manifest shape -/

/-- C5 counterexample: `Build` succeeds on a tree that itself contains a
file named `MANIFEST.sha256`, and the resulting checksum manifest then
contains an entry whose path is `MANIFEST.sha256` — the checksum-manifest
file's own archive path. -/
theorem c5_counterexample :
    (createItpkg poisonedTree none true).result.isOk = true ∧
      (checksumEntries poisonedTree).map (fun e => e.Path)
        = ["MANIFEST.sha256", "intents/hello.itml", "itpkg.json", "policies/security.itml"] := by
  decide


/-! ## Structural lemmas about the built checksum manifest -/

theorem mem_walkFiles {t : SourceTree} {f : SrcFile} :
    f ∈ walkFiles t ↔ f ∈ t.files ∧ f.path ≠ "itpkg.json" := by
  unfold walkFiles
  rw [(sortLe_perm _ _).mem_iff, List.mem_filter]
  simp


theorem walkFiles_paths_nodup {t : SourceTree}
    (hnd : (t.files.map (fun f => f.path)).Nodup) :
    ((walkFiles t).map (fun f => f.path)).Nodup := by
  have hperm : ((walkFiles t).map (fun f => f.path)).Perm
      ((t.files.filter (fun f => f.path ≠ "itpkg.json")).map (fun f => f.path)) :=
    (sortLe_perm _ _).map _
  rw [hperm.nodup_iff]
  exact ((List.filter_sublist _).map _).nodup hnd


theorem rawManifestEntries_paths (t : SourceTree) :
    (rawManifestEntries t).map (fun e => e.Path)
      = "itpkg.json" :: (walkFiles t).map (fun f => f.path) := by
  simp [rawManifestEntries, List.map_map, Function.comp]


theorem rawManifestEntries_paths_nodup {t : SourceTree}
    (hnd : (t.files.map (fun f => f.path)).Nodup) :
    ((rawManifestEntries t).map (fun e => e.Path)).Nodup := by
  rw [rawManifestEntries_paths]
  refine List.nodup_cons.mpr ⟨?_, walkFiles_paths_nodup hnd⟩
  intro hmem
  rcases List.mem_map.mp hmem with ⟨f, hf, hp⟩
  exact (mem_walkFiles.mp hf).2 hp


theorem checksumEntries_perm (t : SourceTree) :
    (checksumEntries t).Perm (rawManifestEntries t) := sortLe_perm _ _


theorem checksumEntries_paths_nodup {t : SourceTree}
    (hnd : (t.files.map (fun f => f.path)).Nodup) :
    ((checksumEntries t).map (fun e => e.Path)).Nodup := by
  rw [((checksumEntries_perm t).map _).nodup_iff]
  exact rawManifestEntries_paths_nodup hnd


theorem checksumEntries_sorted_le (t : SourceTree) :
    (checksumEntries t).Pairwise (fun a b => strLeB a.Path b.Path = true) := by
  unfold checksumEntries
  exact @sortLe_sorted ManifestEntry (fun a b => strLeB a.Path b.Path)
    (fun a b => strLeB_total a.Path b.Path) (fun _ _ _ h₁ h₂ => strLeB_trans h₁ h₂) _


theorem checksumEntries_sorted_strict {t : SourceTree}
    (hnd : (t.files.map (fun f => f.path)).Nodup) :
    (checksumEntries t).Pairwise (fun a b => strLtB a.Path b.Path = true) := by
  have hle := checksumEntries_sorted_le t
  have hne : (checksumEntries t).Pairwise (fun a b => a.Path ≠ b.Path) :=
    List.pairwise_map.mp (checksumEntries_paths_nodup hnd)
  exact (hle.and hne).imp (fun h => strLtB_of_strLeB_ne h.1 h.2)


theorem mem_checksumEntries_path {t : SourceTree} {e : ManifestEntry}
    (he : e ∈ checksumEntries t) :
    e.Path = "itpkg.json" ∨ ∃ f ∈ t.files, f.path ≠ "itpkg.json" ∧ e.Path = f.path := by
  have : e ∈ rawManifestEntries t := (checksumEntries_perm t).mem_iff.mp he
  rcases List.mem_cons.mp this with rfl | hmem
  · left; rfl
  · rcases List.mem_map.mp hmem with ⟨f, hf, rfl⟩
    rcases mem_walkFiles.mp hf with ⟨hmemt, hne⟩
    exact Or.inr ⟨f, hmemt, hne, rfl⟩


/-- C5 amended: on every source tree with duplicate-free file paths and no
source file named `MANIFEST.sha256`, the built checksum manifest is the
LF-terminated sequence of `digest‚ two spaces, path` lines, strictly sorted
by path with no duplicate path, and contains no entry for the
checksum-manifest file itself.  (`Build` also succeeds on trees that do
contain a source file named `MANIFEST.sha256`, and then lists it — the
counterexample — so the no-self-entry guarantee needs that proviso.) -/
theorem c5_checksum_manifest_shape (t : SourceTree)
    (hnd : (t.files.map (fun f => f.path)).Nodup)
    (hnm : ∀ f ∈ t.files, f.path ≠ "MANIFEST.sha256") :
    (manifestContent t).data
        = joinWithChar '
' ((checksumEntries t).map manifestLineChars) ++ ['
'] ∧
      (checksumEntries t).Pairwise (fun a b => strLtB a.Path b.Path = true) ∧
      ((checksumEntries t).map (fun e => e.Path)).Nodup ∧
      (∀ e ∈ checksumEntries t, e.Path ≠ "MANIFEST.sha256") ∧
      (∀ e ∈ checksumEntries t, manifestLineChars e = e.Hash.data ++ ' ' :: ' ' :: e.Path.data) := by
  refine ⟨rfl, checksumEntries_sorted_strict hnd, checksumEntries_paths_nodup hnd, ?_, ?_⟩
  · intro e he
    rcases mem_checksumEntries_path he with hp | ⟨f, hf, _, hp⟩
    · rw [hp]
      decide
    · rw [hp]
      exact hnm f hf
  · intro e _
    rfl


/-- C5 witness: the checksum-manifest shape theorem applied to the demo
tree. -/
theorem c5_witness :
    ((demoTree.files.map (fun f => f.path)).Nodup ∧
        ∀ f ∈ demoTree.files, f.path ≠ "MANIFEST.sha256") ∧
      (checksumEntries demoTree).Pairwise (fun a b => strLtB a.Path b.Path = true) := by
  refine ⟨⟨by decide, by decide⟩, ?_⟩
  exact (c5_checksum_manifest_shape demoTree (by decide) (by decide)).2.1


/-! ## The walk order is canonical -/

theorem compsLt_asymm : ∀ {x y : List String}, compsLt x y = true → compsLt y x = false := by
  intro x
  induction x with
  | nil =>
    intro y h
    cases y with
    | nil => simp [compsLt] at h
    | cons b bs => rfl
  | cons a as ih =>
    intro y h
    cases y with
    | nil => simp [compsLt] at h
    | cons b bs =>
      simp only [compsLt] at h ⊢
      by_cases hab : strLtB a b = true
      · have hba : strLtB b a = false := strLtB_asymm hab
        simp [hab, hba]
      · by_cases hba : strLtB b a = true
        · simp [hab, hba] at h
        · simp only [if_neg hab, if_neg hba] at h ⊢
          exact ih h


theorem compsLt_trans : ∀ {x y z : List String},
    compsLt x y = true → compsLt y z = true → compsLt x z = true := by
  intro x
  induction x with
  | nil =>
    intro y z hxy hyz
    cases y with
    | nil => simp [compsLt] at hxy
    | cons b bs =>
      cases z with
      | nil => simp [compsLt] at hyz
      | cons c cs => rfl
  | cons a as ih =>
    intro y z hxy hyz
    cases y with
    | nil => simp [compsLt] at hxy
    | cons b bs =>
      cases z with
      | nil => simp [compsLt] at hyz
      | cons c cs =>
        simp only [compsLt] at hxy hyz ⊢
        by_cases hab : strLtB a b = true
        · by_cases hbc : strLtB b c = true
          · simp [strLtB_trans hab hbc]
          · by_cases hcb : strLtB c b = true
            · simp [hbc, hcb] at hyz
            · have hbceq : b = c := by
                rcases strLtB_trichotomy b c with h | h | h
                · exact h
                · exact absurd h hbc
                · exact absurd h hcb
              subst hbceq
              simp [hab]
        · by_cases hba : strLtB b a = true
          · simp [hab, hba] at hxy
          · have habeq : a = b := by
              rcases strLtB_trichotomy a b with h | h | h
              · exact h
              · exact absurd h hab
              · exact absurd h hba
            subst habeq
            simp only [if_neg hab, if_neg hba] at hxy
            by_cases hac : strLtB a c = true
            · simp [hac]
            · by_cases hca : strLtB c a = true
              · simp [hac, hca] at hyz
              · simp only [if_neg hac, if_neg hca] at hyz ⊢
                exact ih hxy hyz


theorem compsLt_trichotomy : ∀ x y : List String,
    x = y ∨ compsLt x y = true ∨ compsLt y x = true := by
  intro x
  induction x with
  | nil =>
    intro y
    cases y with
    | nil => left; rfl
    | cons b bs => right; left; rfl
  | cons a as ih =>
    intro y
    cases y with
    | nil => right; right; rfl
    | cons b bs =>
      by_cases hab : strLtB a b = true
      · right; left; simp [compsLt, hab]
      · by_cases hba : strLtB b a = true
        · right; right; simp [compsLt, hba]
        · have heq : a = b := by
            rcases strLtB_trichotomy a b with h | h | h
            · exact h
            · exact absurd h hab
            · exact absurd h hba
          subst heq
          rcases ih bs with rfl | h | h
          · left; rfl
          · right; left; simp [compsLt, h, hab]
          · right; right; simp [compsLt, h, hab]


theorem pathComps_inj {a b : String} (h : pathComps a = pathComps b) : a = b := by
  unfold pathComps at h
  have hinj : Function.Injective String.mk := fun x y hxy => by injection hxy
  have hsplit : splitOnChar '/' a.data = splitOnChar '/' b.data :=
    (List.map_injective_iff.mpr hinj) h
  have := splitOnChar_inj hsplit
  cases a
  cases b
  exact congrArg String.mk this


theorem walkLe_total (a b : String) : walkLe a b = true ∨ walkLe b a = true := by
  by_cases hab : a = b
  · subst hab
    left
    simp [walkLe]
  · have hc : pathComps a ≠ pathComps b := fun h => hab (pathComps_inj h)
    rcases compsLt_trichotomy (pathComps a) (pathComps b) with h | h | h
    · exact absurd h hc
    · left; simp [walkLe, h]
    · right; simp [walkLe, h]


theorem walkLe_antisymm {a b : String} (h₁ : walkLe a b = true) (h₂ : walkLe b a = true) :
    a = b := by
  simp only [walkLe, Bool.or_eq_true, beq_iff_eq] at h₁ h₂
  rcases h₁ with rfl | h₁
  · rfl
  · rcases h₂ with rfl | h₂
    · rfl
    · have := compsLt_asymm h₁
      rw [h₂] at this
      exact Bool.noConfusion this


theorem walkLe_trans {a b c : String} (h₁ : walkLe a b = true) (h₂ : walkLe b c = true) :
    walkLe a c = true := by
  simp only [walkLe, Bool.or_eq_true, beq_iff_eq] at h₁ h₂ ⊢
  rcases h₁ with rfl | h₁
  · exact h₂
  · rcases h₂ with rfl | h₂
    · right; exact h₁
    · right; exact compsLt_trans h₁ h₂


theorem walkFiles_sorted (t : SourceTree) :
    (walkFiles t).Pairwise (fun f g => walkLe f.path g.path = true) := by
  unfold walkFiles
  exact @sortLe_sorted SrcFile (fun f g => walkLe f.path g.path)
    (fun f g => walkLe_total f.path g.path) (fun _ _ _ h₁ h₂ => walkLe_trans h₁ h₂) _


/-- The walked file list is a canonical function of the file set: any
enumeration order of the tree's files yields the same walk order. -/
theorem walkFiles_files_congr {t : SourceTree} {l' : List SrcFile}
    (hperm : l'.Perm t.files) (hnd : (t.files.map (fun f => f.path)).Nodup) :
    walkFiles { t with files := l' } = walkFiles t := by
  have hnd' : (l'.map (fun f => f.path)).Nodup := ((hperm.map _).nodup_iff).mpr hnd
  have hp : (walkFiles { t with files := l' }).Perm (walkFiles t) := by
    unfold walkFiles
    exact (sortLe_perm _ _).trans ((hperm.filter _).trans (sortLe_perm _ _).symm)
  exact @eq_of_perm_of_sorted_keys SrcFile String (fun f g => walkLe f.path g.path)
    (fun f => f.path) (fun f g h₁ h₂ => walkLe_antisymm h₁ h₂) _ _ hp
    (walkFiles_sorted _) (walkFiles_sorted _)
    (@walkFiles_paths_nodup { t with files := l' } hnd')


theorem statExists_files_congr {t : SourceTree} {l' : List SrcFile}
    (hperm : l'.Perm t.files) (p : String) :
    statExists { t with files := l' } p = statExists t p := by
  unfold statExists
  have hany : ∀ q : SrcFile → Bool, l'.any q = t.files.any q := by
    intro q
    by_cases hb : t.files.any q = true
    · rw [hb]
      rcases List.any_eq_true.mp hb with ⟨x, hx, hq⟩
      exact List.any_eq_true.mpr ⟨x, hperm.mem_iff.mpr hx, hq⟩
    · rw [Bool.eq_false_iff.mpr hb, Bool.eq_false_iff]
      intro hc
      rcases List.any_eq_true.mp hc with ⟨x, hx, hq⟩
      exact hb (List.any_eq_true.mpr ⟨x, hperm.mem_iff.mp hx, hq⟩)
  rw [hany]


theorem validateManifest_files_congr {t : SourceTree} {l' : List SrcFile}
    (hperm : l'.Perm t.files) (m : ItpkgManifest) :
    validateManifest m { t with files := l' } = validateManifest m t := by
  unfold validateManifest
  simp only [statExists_files_congr hperm]


theorem validateStructure_files_congr {t : SourceTree} {l' : List SrcFile}
    (hperm : l'.Perm t.files) (m : ItpkgManifest) :
    validateStructure { t with files := l' } m = validateStructure t m := by
  unfold validateStructure
  simp only [statExists_files_congr hperm]


theorem checksumEntries_files_congr {t : SourceTree} {l' : List SrcFile}
    (hperm : l'.Perm t.files) (hnd : (t.files.map (fun f => f.path)).Nodup) :
    checksumEntries { t with files := l' } = checksumEntries t := by
  unfold checksumEntries rawManifestEntries
  rw [walkFiles_files_congr hperm hnd]


theorem manifestContent_files_congr {t : SourceTree} {l' : List SrcFile}
    (hperm : l'.Perm t.files) (hnd : (t.files.map (fun f => f.path)).Nodup) :
    manifestContent { t with files := l' } = manifestContent t := by
  unfold manifestContent
  rw [checksumEntries_files_congr hperm hnd]


theorem archive_modTime_zero {t : SourceTree} {sig : String} {e : TarEntry}
    (he : e ∈ (addBytesToTar (marshalManifest t.manifest) 0o644 "itpkg.json" ::
        (walkFiles t).map (fun f => addBytesToTar f.content f.mode f.path)
        ++ [addBytesToTar (manifestContent t) 0o644 "MANIFEST.sha256"])
        ++ [addBytesToTar sig 0o644 "SIGNATURE"]) :
    e.ModTime = 0 := by
  simp only [List.mem_append, List.mem_cons, List.mem_map, List.mem_singleton,
    List.not_mem_nil, or_false] at he
  rcases he with ((rfl | ⟨f, _, rfl⟩) | rfl) | rfl <;> rfl


/-- C4: building is deterministic.  Re-running `Build` on the unchanged tree
is the same pure function application; moreover the builder canonicalizes
the archive entry order (the walk visits files in lexical order, so any
enumeration of the same file set yields the identical archive), writes
zero timestamps on every entry it writes, and emits identical
checksum-manifest bytes. -/
theorem c4_build_deterministic (t : SourceTree) (l' : List SrcFile) (k : Option Nat) (u : Bool)
    (hperm : l'.Perm t.files) (hnd : (t.files.map (fun f => f.path)).Nodup) :
    createItpkg { t with files := l' } k u = createItpkg t k u ∧
      manifestContent { t with files := l' } = manifestContent t ∧
      checksumEntries { t with files := l' } = checksumEntries t ∧
      ∀ es, (createItpkg t k u).result = Except.ok es → ∀ e ∈ es, e.ModTime = 0 := by
  refine ⟨?_, manifestContent_files_congr hperm hnd, checksumEntries_files_congr hperm hnd, ?_⟩
  · unfold createItpkg
    rw [validateManifest_files_congr hperm, validateStructure_files_congr hperm,
      walkFiles_files_congr hperm hnd, manifestContent_files_congr hperm hnd]
  · intro es hes e he
    unfold createItpkg at hes
    cases hv : validateManifest t.manifest t with
    | error e' =>
      rw [hv] at hes
      exact absurd hes (by simp)
    | ok _ =>
      rw [hv] at hes
      cases hst : validateStructure t t.manifest with
      | error e' =>
        rw [hst] at hes
        exact absurd hes (by simp)
      | ok _ =>
        rw [hst] at hes
        cases k with
        | some kk =>
          simp only [Except.ok.injEq] at hes
          subst hes
          exact archive_modTime_zero he
        | none =>
          cases u with
          | true =>
            simp only [if_true] at hes
            simp only [Except.ok.injEq] at hes
            subst hes
            exact archive_modTime_zero he
          | false => simp at hes


/-- C4 witness: the determinism theorem applied to the demo tree with its
file list enumerated in reverse. -/
theorem c4_witness :
    createItpkg { demoTree with files := demoFiles.reverse } none true
      = createItpkg demoTree none true :=
  (c4_build_deterministic demoTree demoFiles.reverse none true
    (List.reverse_perm demoFiles) (by decide)).1


/-! ## Locating entries in the built archive -/

theorem lookupEntry_append (es₁ es₂ : List TarEntry) (p : String) :
    lookupEntry (es₁ ++ es₂) p
      = match lookupEntry es₂ p with
        | some c => some c
        | none => lookupEntry es₁ p := by
  induction es₁ with
  | nil =>
    cases h₂ : lookupEntry es₂ p <;> simp [h₂, lookupEntry]
  | cons e rest ih =>
    show (match lookupEntry (rest ++ es₂) p with
      | some c => some c
      | none => if e.Name == p then some e.content else none) = _
    rw [ih]
    cases h₂ : lookupEntry es₂ p <;> cases hr : lookupEntry rest p <;>
      simp [lookupEntry, hr]


theorem lookupEntry_not_mem {es : List TarEntry} {p : String}
    (h : ∀ e ∈ es, e.Name ≠ p) : lookupEntry es p = none := by
  induction es with
  | nil => rfl
  | cons e rest ih =>
    show (match lookupEntry rest p with
      | some c => some c
      | none => if e.Name == p then some e.content else none) = none
    rw [ih (fun x hx => h x (by simp [hx]))]
    simp [beq_eq_false_iff_ne.mpr (h e (by simp))]


theorem lookupEntry_last {es : List TarEntry} {e : TarEntry} {p : String}
    (he : e.Name = p) : lookupEntry (es ++ [e]) p = some e.content := by
  rw [lookupEntry_append]
  have : lookupEntry [e] p = some e.content := by
    show (match (none : Option String) with
      | some c => some c
      | none => if e.Name == p then some e.content else none) = some e.content
    simp [he]
  rw [this]


theorem lookupEntry_append_ne {es : List TarEntry} {e : TarEntry} {p : String}
    (he : e.Name ≠ p) : lookupEntry (es ++ [e]) p = lookupEntry es p := by
  rw [lookupEntry_append]
  have : lookupEntry [e] p = none := lookupEntry_not_mem (by simpa using he)
  rw [this]


theorem lookupEntry_head {e : TarEntry} {rest : List TarEntry} {p : String}
    (he : e.Name = p) (hrest : ∀ x ∈ rest, x.Name ≠ p) :
    lookupEntry (e :: rest) p = some e.content := by
  show (match lookupEntry rest p with
    | some c => some c
    | none => if e.Name == p then some e.content else none) = some e.content
  rw [lookupEntry_not_mem hrest]
  simp [he]


/-- The successful build result is the archive in its canonical entry
order. -/
theorem createItpkg_ok_shape {t : SourceTree} {k : Option Nat} {u : Bool} {es : List TarEntry}
    (hes : (createItpkg t k u).result = Except.ok es) :
    ∃ sig, es = (addBytesToTar (marshalManifest t.manifest) 0o644 "itpkg.json" ::
        (walkFiles t).map (fun f => addBytesToTar f.content f.mode f.path)
        ++ [addBytesToTar (manifestContent t) 0o644 "MANIFEST.sha256"])
        ++ [addBytesToTar sig 0o644 "SIGNATURE"] ∧
      ((k = none ∧ u = true ∧ sig = "UNSIGNED") ∨
        (∃ kk, k = some kk ∧ sig = ed25519Sign kk (manifestContent t))) := by
  unfold createItpkg at hes
  cases hv : validateManifest t.manifest t with
  | error e' =>
    rw [hv] at hes
    exact absurd hes (by simp)
  | ok _ =>
    rw [hv] at hes
    cases hst : validateStructure t t.manifest with
    | error e' =>
      rw [hst] at hes
      exact absurd hes (by simp)
    | ok _ =>
      rw [hst] at hes
      cases k with
      | some kk =>
        simp only [Except.ok.injEq] at hes
        subst hes
        exact ⟨ed25519Sign kk (manifestContent t), rfl, Or.inr ⟨kk, rfl, rfl⟩⟩
      | none =>
        cases u with
        | true =>
          simp only [if_true, Except.ok.injEq] at hes
          subst hes
          exact ⟨"UNSIGNED", rfl, Or.inl ⟨rfl, rfl, rfl⟩⟩
        | false => simp at hes


theorem lookupEntry_build_signature {t : SourceTree} {sig : String} :
    lookupEntry ((addBytesToTar (marshalManifest t.manifest) 0o644 "itpkg.json" ::
        (walkFiles t).map (fun f => addBytesToTar f.content f.mode f.path)
        ++ [addBytesToTar (manifestContent t) 0o644 "MANIFEST.sha256"])
        ++ [addBytesToTar sig 0o644 "SIGNATURE"]) "SIGNATURE" = some sig :=
  lookupEntry_last rfl


theorem lookupEntry_build_manifest {t : SourceTree} {sig : String} :
    lookupEntry ((addBytesToTar (marshalManifest t.manifest) 0o644 "itpkg.json" ::
        (walkFiles t).map (fun f => addBytesToTar f.content f.mode f.path)
        ++ [addBytesToTar (manifestContent t) 0o644 "MANIFEST.sha256"])
        ++ [addBytesToTar sig 0o644 "SIGNATURE"]) "MANIFEST.sha256"
      = some (manifestContent t) := by
  rw [lookupEntry_append_ne
    (fun h => absurd (h : ("SIGNATURE" : String) = "MANIFEST.sha256") (by decide))]
  show lookupEntry ((addBytesToTar (marshalManifest t.manifest) 0o644 "itpkg.json" ::
    (walkFiles t).map (fun f => addBytesToTar f.content f.mode f.path))
    ++ [addBytesToTar (manifestContent t) 0o644 "MANIFEST.sha256"]) "MANIFEST.sha256" = _
  exact lookupEntry_last rfl


theorem lookupEntry_build_itpkg {t : SourceTree} {sig : String} :
    lookupEntry ((addBytesToTar (marshalManifest t.manifest) 0o644 "itpkg.json" ::
        (walkFiles t).map (fun f => addBytesToTar f.content f.mode f.path)
        ++ [addBytesToTar (manifestContent t) 0o644 "MANIFEST.sha256"])
        ++ [addBytesToTar sig 0o644 "SIGNATURE"]) "itpkg.json"
      = some (marshalManifest t.manifest) := by
  rw [lookupEntry_append_ne
    (fun h => absurd (h : ("SIGNATURE" : String) = "itpkg.json") (by decide))]
  apply lookupEntry_head
  · rfl
  · intro x hx
    rcases List.mem_append.mp hx with hx | hx
    · rcases List.mem_map.mp hx with ⟨f, hf, rfl⟩
      exact (mem_walkFiles.mp hf).2
    · rw [List.mem_singleton.mp hx]
      intro h
      exact @absurd (("MANIFEST.sha256" : String) = "itpkg.json") False h (by decide)


/-! ## C8 — the signature covers exactly the archived checksum manifest -/

/-- C8: on every successful build with a private key, the `SIGNATURE` entry
content is exactly the Ed25519 signature over the exact `MANIFEST.sha256`
bytes as archived, and Ed25519 verification with the matching key over those
bytes succeeds; with no key and unsigned explicitly allowed the signature
file is the `"UNSIGNED"` sentinel; and with no key and no unsigned opt-out,
`Build` fails with the signing error. -/
theorem c8_signature_exact_bytes (t : SourceTree) (u : Bool)
    (hv : (validateManifest t.manifest t).isOk = true)
    (hst : (validateStructure t t.manifest).isOk = true) :
    (∀ kk es, (createItpkg t (some kk) u).result = Except.ok es →
      lookupEntry es "SIGNATURE" = some (ed25519Sign kk (manifestContent t)) ∧
        lookupEntry es "MANIFEST.sha256" = some (manifestContent t) ∧
        ed25519Verify kk (manifestContent t) (ed25519Sign kk (manifestContent t)) = true) ∧
      (∀ es, (createItpkg t none true).result = Except.ok es →
        lookupEntry es "SIGNATURE" = some "UNSIGNED") ∧
      (createItpkg t none false).result
        = Except.error "signing key not provided; use --unsigned to allow unsigned package" := by
  refine ⟨?_, ?_, ?_⟩
  · intro kk es hes
    rcases createItpkg_ok_shape hes with ⟨sig, rfl, hcase⟩
    rcases hcase with ⟨hne, -, -⟩ | ⟨kk', hk, rfl⟩
    · exact absurd hne (by simp)
    · have hkk : kk' = kk := by injection hk with h; exact h.symm
      subst hkk
      exact ⟨lookupEntry_build_signature, lookupEntry_build_manifest, by simp [ed25519Verify]⟩
  · intro es hes
    rcases createItpkg_ok_shape hes with ⟨sig, rfl, hcase⟩
    rcases hcase with ⟨-, -, rfl⟩ | ⟨kk', hk, -⟩
    · exact lookupEntry_build_signature
    · exact absurd hk (by simp)
  · unfold createItpkg
    cases hv' : validateManifest t.manifest t with
    | error e =>
      rw [hv'] at hv
      exact absurd hv Bool.noConfusion
    | ok _ =>
      cases hst' : validateStructure t t.manifest with
      | error e =>
        rw [hst'] at hst
        exact absurd hst Bool.noConfusion
      | ok _ => rfl


/-- C8 witness: the signing-gate applied to the demo tree. -/
theorem c8_witness :
    (validateManifest demoTree.manifest demoTree).isOk = true ∧
      (createItpkg demoTree none false).result
        = Except.error "signing key not provided; use --unsigned to allow unsigned package" := by
  refine ⟨by decide, ?_⟩
  exact (c8_signature_exact_bytes demoTree false (by decide) (by decide)).2.2


/-! ## C10 — the archived manifest is the re-serialization -/

theorem mem_checksumEntries_itpkg {t : SourceTree} {e : ManifestEntry}
    (he : e ∈ checksumEntries t) (hp : e.Path = "itpkg.json") :
    e.Hash = sha256Hex (marshalManifest t.manifest) := by
  have hmem : e ∈ rawManifestEntries t := (checksumEntries_perm t).mem_iff.mp he
  rcases List.mem_cons.mp hmem with rfl | hmem
  · rfl
  · rcases List.mem_map.mp hmem with ⟨f, hf, rfl⟩
    exact absurd hp (mem_walkFiles.mp hf).2


/-- C10: the checksum entry recorded for `itpkg.json` is computed over the
JSON re-serialization of the parsed manifest, and those same re-serialized
bytes are what the archive holds at `itpkg.json` (so the archived manifest's
digest always matches its archived bytes); and the archive does not depend
on the raw bytes of the source tree's own `itpkg.json` file at all — the
walk skips it and only the parsed manifest is serialized, so formatting,
field order and unknown fields of the source file are normalized away. -/
theorem c10_manifest_reserialization (t : SourceTree) (k : Option Nat) (u : Bool) :
    (∀ es, (createItpkg t k u).result = Except.ok es →
      lookupEntry es "itpkg.json" = some (marshalManifest t.manifest) ∧
        ∀ e ∈ checksumEntries t, e.Path = "itpkg.json" →
          e.Hash = sha256Hex (marshalManifest t.manifest)) ∧
      ∀ m₁ m₂ c₁ c₂,
        createItpkg { t with files := { path := "itpkg.json", mode := m₁, content := c₁ } :: t.files } k u
          = createItpkg { t with files := { path := "itpkg.json", mode := m₂, content := c₂ } :: t.files } k u := by
  constructor
  · intro es hes
    rcases createItpkg_ok_shape hes with ⟨sig, rfl, -⟩
    exact ⟨lookupEntry_build_itpkg, fun e he hp => mem_checksumEntries_itpkg he hp⟩
  · intro m₁ m₂ c₁ c₂
    have hw : walkFiles { t with files := { path := "itpkg.json", mode := m₁, content := c₁ } :: t.files }
        = walkFiles { t with files := { path := "itpkg.json", mode := m₂, content := c₂ } :: t.files } := by
      unfold walkFiles
      simp only [List.filter_cons]
      norm_num
    have hs : ∀ p, statExists { t with files := { path := "itpkg.json", mode := m₁, content := c₁ } :: t.files } p
        = statExists { t with files := { path := "itpkg.json", mode := m₂, content := c₂ } :: t.files } p := by
      intro p
      unfold statExists
      simp only [List.any_cons]
    unfold createItpkg validateManifest validateStructure manifestContent checksumEntries rawManifestEntries
    simp only [hw, hs]


/-! ## C3 — round trip through build and extraction -/

theorem join_right_cancel {dest x y : String} (h : dest ++ "/" ++ x = dest ++ "/" ++ y) :
    x = y := by
  have hd := congrArg String.data h
  rw [data_join_slash, data_join_slash] at hd
  have hc := List.append_cancel_left hd
  have h2 : x.data = y.data := by injection hc
  cases x
  cases y
  exact congrArg String.mk h2


theorem lookupEntry_cons_ne {e : TarEntry} {rest : List TarEntry} {p : String}
    (he : e.Name ≠ p) : lookupEntry (e :: rest) p = lookupEntry rest p := by
  show (match lookupEntry rest p with
    | some c => some c
    | none => if e.Name == p then some e.content else none) = _
  cases lookupEntry rest p <;> simp [beq_eq_false_iff_ne.mpr he]


theorem lastWrite_untarGz {dest : String} (hdest : pathOk dest = true) :
    ∀ (es : List TarEntry) (p : String), pathOk p = true →
      (∀ e ∈ es, pathOk e.Name = true) →
      lastWrite (untarGz dest es) (dest ++ "/" ++ p) = lookupEntry es p := by
  intro es
  induction es with
  | nil => intro p _ _; rfl
  | cons e rest ih =>
    intro p hp hok
    show (match lastWrite (untarGz dest rest) (dest ++ "/" ++ p) with
      | some c => some c
      | none =>
        if cleanJoin dest e.Name == dest ++ "/" ++ p then some e.content else none) = _
    rw [ih p hp (fun x hx => hok x (by simp [hx]))]
    rw [cleanJoin_of_ok hdest (hok e (by simp))]
    show _ = match lookupEntry rest p with
      | some c => some c
      | none => if e.Name == p then some e.content else none
    cases lookupEntry rest p with
    | some c => rfl
    | none =>
      by_cases he : e.Name = p
      · simp [he]
      · have h1 : (dest ++ "/" ++ e.Name == dest ++ "/" ++ p) = false :=
          beq_eq_false_iff_ne.mpr (fun hc => he (join_right_cancel hc))
        have h2 : (e.Name == p) = false := beq_eq_false_iff_ne.mpr he
        rw [h1, h2]


theorem path_unique {l : List SrcFile} (hnd : (l.map (fun f => f.path)).Nodup)
    {f g : SrcFile} (hf : f ∈ l) (hg : g ∈ l) (h : f.path = g.path) : f = g :=
  List.inj_on_of_nodup_map hnd hf hg h


theorem find?_paths_eq {l₁ l₂ : List SrcFile} {p : String}
    (hnd₁ : (l₁.map (fun f => f.path)).Nodup)
    (hiff : ∀ f, (f ∈ l₁ ∧ f.path = p) ↔ (f ∈ l₂ ∧ f.path = p)) :
    l₁.find? (fun f => f.path == p) = l₂.find? (fun f => f.path == p) := by
  cases h₁ : l₁.find? (fun f => f.path == p) with
  | some f =>
    have hf₁ : f ∈ l₁ := List.mem_of_find?_eq_some h₁
    have hfp : f.path = p := by simpa using List.find?_some h₁
    have hf₂ : f ∈ l₂ := ((hiff f).mp ⟨hf₁, hfp⟩).1
    cases h₂ : l₂.find? (fun f => f.path == p) with
    | none =>
      have := List.find?_eq_none.mp h₂ f hf₂
      simp [hfp] at this
    | some g =>
      have hg₂ : g ∈ l₂ := List.mem_of_find?_eq_some h₂
      have hgp : g.path = p := by simpa using List.find?_some h₂
      have hg₁ : g ∈ l₁ := ((hiff g).mpr ⟨hg₂, hgp⟩).1
      rw [path_unique hnd₁ hf₁ hg₁ (by rw [hfp, hgp])]
  | none =>
    cases h₂ : l₂.find? (fun f => f.path == p) with
    | none => rfl
    | some g =>
      have hg₂ : g ∈ l₂ := List.mem_of_find?_eq_some h₂
      have hgp : g.path = p := by simpa using List.find?_some h₂
      have hg₁ : g ∈ l₁ := ((hiff g).mpr ⟨hg₂, hgp⟩).1
      have := List.find?_eq_none.mp h₁ g hg₁
      simp [hgp] at this


theorem treeLookup_walkFiles {t : SourceTree} {p : String}
    (hnd : (t.files.map (fun f => f.path)).Nodup) (hp : p ≠ "itpkg.json") :
    ((walkFiles t).find? (fun f => f.path == p)).map (fun f => f.content)
      = treeLookup t p := by
  unfold treeLookup
  rw [find?_paths_eq (walkFiles_paths_nodup hnd)]
  intro f
  constructor
  · rintro ⟨hf, hfp⟩
    exact ⟨(mem_walkFiles.mp hf).1, hfp⟩
  · rintro ⟨hf, hfp⟩
    exact ⟨mem_walkFiles.mpr ⟨hf, by rw [hfp]; exact hp⟩, hfp⟩


theorem lookupEntry_map_files : ∀ {l : List SrcFile} {p : String},
    (l.map (fun f => f.path)).Nodup →
    lookupEntry (l.map (fun f => addBytesToTar f.content f.mode f.path)) p
      = (l.find? (fun f => f.path == p)).map (fun f => f.content) := by
  intro l
  induction l with
  | nil => intro p _; rfl
  | cons f rest ih =>
    intro p hnd
    rw [List.map_cons] at hnd
    rcases List.nodup_cons.mp hnd with ⟨hf, hrest⟩
    by_cases hfp : f.path = p
    · have hnone : lookupEntry (rest.map fun g => addBytesToTar g.content g.mode g.path) p
          = none := by
        apply lookupEntry_not_mem
        intro x hx
        rcases List.mem_map.mp hx with ⟨g, hg, rfl⟩
        show g.path ≠ p
        intro hgp
        exact hf (List.mem_map.mpr ⟨g, hg, show g.path = f.path by rw [hgp, hfp]⟩)
      show (match lookupEntry (rest.map fun g => addBytesToTar g.content g.mode g.path) p with
        | some c => some c
        | none => if f.path == p then some f.content else none) = _
      rw [hnone, List.find?_cons_of_pos _ (by simp [hfp])]
      simp [hfp]
    · show lookupEntry ((addBytesToTar f.content f.mode f.path) ::
        (rest.map fun g => addBytesToTar g.content g.mode g.path)) p = _
      rw [lookupEntry_cons_ne hfp]
      rw [ih hrest]
      rw [List.find?_cons_of_neg _ (by simp [hfp])]


theorem lookupEntry_build_file {t : SourceTree} {sig p : String}
    (hnd : (t.files.map (fun f => f.path)).Nodup)
    (hp1 : p ≠ "itpkg.json") (hp2 : p ≠ "MANIFEST.sha256") (hp3 : p ≠ "SIGNATURE") :
    lookupEntry ((addBytesToTar (marshalManifest t.manifest) 0o644 "itpkg.json" ::
        (walkFiles t).map (fun f => addBytesToTar f.content f.mode f.path)
        ++ [addBytesToTar (manifestContent t) 0o644 "MANIFEST.sha256"])
        ++ [addBytesToTar sig 0o644 "SIGNATURE"]) p = treeLookup t p := by
  rw [lookupEntry_append_ne (fun h => hp3 (Eq.symm (h : ("SIGNATURE" : String) = p)))]
  show lookupEntry ((addBytesToTar (marshalManifest t.manifest) 0o644 "itpkg.json" ::
    (walkFiles t).map (fun f => addBytesToTar f.content f.mode f.path))
    ++ [addBytesToTar (manifestContent t) 0o644 "MANIFEST.sha256"]) p = _
  rw [lookupEntry_append_ne (fun h => hp2 (Eq.symm (h : ("MANIFEST.sha256" : String) = p)))]
  rw [lookupEntry_cons_ne (fun h => hp1 (Eq.symm (h : ("itpkg.json" : String) = p)))]
  rw [lookupEntry_map_files (walkFiles_paths_nodup hnd)]
  exact treeLookup_walkFiles hnd hp1


theorem build_entry_names {t : SourceTree} {sig : String} {e : TarEntry}
    (he : e ∈ (addBytesToTar (marshalManifest t.manifest) 0o644 "itpkg.json" ::
        (walkFiles t).map (fun f => addBytesToTar f.content f.mode f.path)
        ++ [addBytesToTar (manifestContent t) 0o644 "MANIFEST.sha256"])
        ++ [addBytesToTar sig 0o644 "SIGNATURE"]) :
    e.Name = "itpkg.json" ∨ e.Name = "MANIFEST.sha256" ∨ e.Name = "SIGNATURE" ∨
      e.Name ∈ t.files.map (fun f => f.path) := by
  simp only [List.mem_append, List.mem_cons, List.mem_map, List.mem_singleton,
    List.not_mem_nil, or_false] at he
  rcases he with ((rfl | ⟨f, hf, rfl⟩) | rfl) | rfl
  · left; rfl
  · right; right; right
    exact List.mem_map.mpr ⟨f, (mem_walkFiles.mp hf).1, rfl⟩
  · right; left; rfl
  · right; right; left; rfl


/-- C3: for every source tree with well-formed, duplicate-free relative
paths on which `Build` succeeds, extracting the built archive into an empty
destination yields exactly the tree's files — identical relative paths and
byte-identical contents — except at the three engine-owned names
(`itpkg.json`, `MANIFEST.sha256`, `SIGNATURE`): the final contents at
`dest/p` equal the tree's contents at `p` for every other well-formed `p`,
and every write lands at `dest/n` for `n` one of the three engine names or a
tree path. -/
theorem c3_round_trip (t : SourceTree) (dest : String) (k : Option Nat) (u : Bool)
    (es : List TarEntry)
    (hdest : pathOk dest = true)
    (hok : ∀ f ∈ t.files, pathOk f.path = true)
    (hnd : (t.files.map (fun f => f.path)).Nodup)
    (hes : (createItpkg t k u).result = Except.ok es) :
    (∀ p, pathOk p = true → p ≠ "itpkg.json" → p ≠ "MANIFEST.sha256" → p ≠ "SIGNATURE" →
      lastWrite (untarGz dest es) (dest ++ "/" ++ p) = treeLookup t p) ∧
    (∀ w ∈ untarGz dest es, ∃ n,
      (n = "itpkg.json" ∨ n = "MANIFEST.sha256" ∨ n = "SIGNATURE" ∨
        n ∈ t.files.map (fun f => f.path)) ∧
      w.1 = dest ++ "/" ++ n) := by
  rcases createItpkg_ok_shape hes with ⟨sig, rfl, -⟩
  have hnames : ∀ e ∈ (addBytesToTar (marshalManifest t.manifest) 0o644 "itpkg.json" ::
      (walkFiles t).map (fun f => addBytesToTar f.content f.mode f.path)
      ++ [addBytesToTar (manifestContent t) 0o644 "MANIFEST.sha256"])
      ++ [addBytesToTar sig 0o644 "SIGNATURE"], pathOk e.Name = true := by
    intro e he
    rcases build_entry_names he with h | h | h | h
    · rw [h]; decide
    · rw [h]; decide
    · rw [h]; decide
    · rcases List.mem_map.mp h with ⟨f, hf, hp⟩
      rw [← hp]
      exact hok f hf
  constructor
  · intro p hp hp1 hp2 hp3
    rw [lastWrite_untarGz hdest _ p hp hnames]
    exact lookupEntry_build_file hnd hp1 hp2 hp3
  · intro w hw
    rcases List.mem_map.mp hw with ⟨e, he, rfl⟩
    refine ⟨e.Name, ?_, ?_⟩
    · rcases build_entry_names he with h | h | h | h
      · left; exact h
      · right; left; exact h
      · right; right; left; exact h
      · right; right; right; exact h
    · exact congrArg Prod.fst (congrArg (fun q => (q, e.content)) (cleanJoin_of_ok hdest (hnames e he)))


/-- C3 witness: the round trip applied to the demo tree, read back at one of
its files.  (The archive value is left in its symbolic shape: normalizing
the digest strings is unnecessary.) -/
theorem c3_witness :
    (createItpkg demoTree none true).result
        = Except.ok ((addBytesToTar (marshalManifest demoTree.manifest) 0o644 "itpkg.json" ::
            (walkFiles demoTree).map (fun f => addBytesToTar f.content f.mode f.path)
            ++ [addBytesToTar (manifestContent demoTree) 0o644 "MANIFEST.sha256"])
            ++ [addBytesToTar "UNSIGNED" 0o644 "SIGNATURE"]) ∧
      lastWrite
          (untarGz "out" ((addBytesToTar (marshalManifest demoTree.manifest) 0o644 "itpkg.json" ::
            (walkFiles demoTree).map (fun f => addBytesToTar f.content f.mode f.path)
            ++ [addBytesToTar (manifestContent demoTree) 0o644 "MANIFEST.sha256"])
            ++ [addBytesToTar "UNSIGNED" 0o644 "SIGNATURE"]))
          ("out" ++ "/" ++ "intents/hello.itml")
        = treeLookup demoTree "intents/hello.itml" := by
  have hv : validateManifest demoTree.manifest demoTree = Except.ok () := by decide
  have hst : validateStructure demoTree demoTree.manifest = Except.ok () := by decide
  have hes : (createItpkg demoTree none true).result
      = Except.ok ((addBytesToTar (marshalManifest demoTree.manifest) 0o644 "itpkg.json" ::
          (walkFiles demoTree).map (fun f => addBytesToTar f.content f.mode f.path)
          ++ [addBytesToTar (manifestContent demoTree) 0o644 "MANIFEST.sha256"])
          ++ [addBytesToTar "UNSIGNED" 0o644 "SIGNATURE"]) := by
    unfold createItpkg
    rw [hv, hst]
    rfl
  refine ⟨hes, ?_⟩
  exact (c3_round_trip demoTree "out" none true _
      (by decide) (by decide) (by decide) hes).1
    "intents/hello.itml" (by decide) (by decide) (by decide) (by decide)


/-! ## C2 — tamper detection by the (spec-modelled) verifier

First the parse of the built checksum manifest is shown to recover the
checksum entries exactly. -/

theorem mem_joinWithChar {sep : Char} {c : Char} :
    ∀ {ls : List (List Char)}, c ∈ joinWithChar sep ls → c = sep ∨ ∃ l ∈ ls, c ∈ l := by
  intro ls
  induction ls with
  | nil => intro h; simp [joinWithChar] at h
  | cons l rest ih =>
    intro h
    cases rest with
    | nil =>
      right
      exact ⟨l, by simp, h⟩
    | cons l₂ rest₂ =>
      rcases List.mem_append.mp h with h' | h'
      · right; exact ⟨l, by simp, h'⟩
      · rcases List.mem_cons.mp h' with rfl | h'
        · left; rfl
        · rcases ih h' with h'' | ⟨l', hl', hc⟩
          · left; exact h''
          · right; exact ⟨l', by simp [hl'], hc⟩


theorem pathOk_no_newline {p : String} (hp : pathOk p = true) : '\n' ∉ p.data := by
  intro hmem
  have hj : p.data = joinWithChar '/' (splitOnChar '/' p.data) :=
    (joinWithChar_splitOnChar '/' p.data).symm
  rw [hj] at hmem
  rcases mem_joinWithChar hmem with h | ⟨l, hl, hc⟩
  · exact absurd h (by decide)
  · have hall := (Bool.and_eq_true _ _ |>.mp hp).2
    have hok := List.all_eq_true.mp hall l hl
    have hnl := (Bool.and_eq_true _ _ |>.mp hok).2
    have := List.all_eq_true.mp hnl '\n' hc
    simp at this


theorem split_join_newline : ∀ (lines : List (List Char)), lines ≠ [] →
    (∀ l ∈ lines, '\n' ∉ l) →
    splitOnChar '\n' (joinWithChar '\n' lines ++ ['\n']) = lines ++ [[]] := by
  intro lines
  induction lines with
  | nil => intro h _; exact absurd rfl h
  | cons l rest ih =>
    intro _ hnl
    cases rest with
    | nil =>
      show splitOnChar '\n' (l ++ '\n' :: []) = [l, []]
      rw [splitOnChar_append]
      rw [splitOnChar_of_not_mem (hnl l (by simp))]
      rfl
    | cons l₂ rest₂ =>
      show splitOnChar '\n' ((l ++ '\n' :: joinWithChar '\n' (l₂ :: rest₂)) ++ ['\n']) = _
      rw [List.append_assoc]
      show splitOnChar '\n' (l ++ '\n' :: (joinWithChar '\n' (l₂ :: rest₂) ++ ['\n'])) = _
      rw [splitOnChar_append]
      rw [splitOnChar_of_not_mem (hnl l (by simp))]
      rw [ih (by simp) (fun x hx => hnl x (by simp [hx]))]
      rfl


theorem dropWhile_sep {d : List Char} (hd : ∀ c ∈ d, c ≠ ' ') (rest : List Char) :
    (d ++ ' ' :: rest).dropWhile (fun c => c != ' ') = ' ' :: rest ∧
      (d ++ ' ' :: rest).takeWhile (fun c => c != ' ') = d := by
  induction d with
  | nil =>
    constructor
    · simp [List.dropWhile]
    · simp [List.takeWhile]
  | cons a as ih =>
    have ha : (a != ' ') = true := bne_iff_ne.mpr (hd a (by simp))
    have := ih (fun c hc => hd c (by simp [hc]))
    constructor
    · show ((a :: (as ++ ' ' :: rest)).dropWhile (fun c => c != ' ')) = _
      simp only [List.dropWhile, ha]
      exact this.1
    · show ((a :: (as ++ ' ' :: rest)).takeWhile (fun c => c != ' ')) = _
      simp only [List.takeWhile, ha]
      rw [this.2]


theorem parseLine_roundtrip (e : ManifestEntry)
    (hd : ∀ c ∈ e.Hash.data, c ≠ ' ') :
    parseLine (manifestLineChars e) = some e := by
  unfold parseLine manifestLineChars
  rcases dropWhile_sep hd (' ' :: e.Path.data) with ⟨h1, h2⟩
  rw [h1, h2]
  rfl


theorem mapOpt_parseLine (l : List ManifestEntry)
    (hd : ∀ e ∈ l, ∀ c ∈ e.Hash.data, c ≠ ' ') :
    mapOpt parseLine (linesOf l) = some l := by
  induction l with
  | nil => rfl
  | cons e rest ih =>
    show mapOpt parseLine (manifestLineChars e :: linesOf rest) = _
    unfold mapOpt
    rw [parseLine_roundtrip e (hd e (by simp))]
    rw [ih (fun x hx => hd x (by simp [hx]))]


theorem checksumEntries_hash {t : SourceTree} {e : ManifestEntry}
    (he : e ∈ checksumEntries t) : ∃ s, e.Hash = sha256Hex s := by
  have : e ∈ rawManifestEntries t := (checksumEntries_perm t).mem_iff.mp he
  rcases List.mem_cons.mp this with rfl | hmem
  · exact ⟨marshalManifest t.manifest, rfl⟩
  · rcases List.mem_map.mp hmem with ⟨f, _, rfl⟩
    exact ⟨f.content, rfl⟩


theorem checksumEntries_hash_no_space {t : SourceTree} {e : ManifestEntry}
    (he : e ∈ checksumEntries t) : ∀ c ∈ e.Hash.data, c ≠ ' ' := by
  rcases checksumEntries_hash he with ⟨s, hs⟩
  intro c hc
  rw [hs] at hc
  exact sha256Hex_not_space hc


theorem checksumEntries_path_no_newline {t : SourceTree} {e : ManifestEntry}
    (hok : ∀ f ∈ t.files, pathOk f.path = true)
    (he : e ∈ checksumEntries t) : '\n' ∉ e.Path.data := by
  rcases mem_checksumEntries_path he with hp | ⟨f, hf, _, hp⟩
  · rw [hp]
    decide
  · rw [hp]
    exact pathOk_no_newline (hok f hf)


theorem manifestLine_no_newline {t : SourceTree} {e : ManifestEntry}
    (hok : ∀ f ∈ t.files, pathOk f.path = true)
    (he : e ∈ checksumEntries t) : '\n' ∉ manifestLineChars e := by
  intro hmem
  unfold manifestLineChars at hmem
  rcases List.mem_append.mp hmem with h | h
  · rcases checksumEntries_hash he with ⟨s, hs⟩
    rw [hs] at h
    exact sha256Hex_not_newline h rfl
  · rcases List.mem_cons.mp h with h' | h'
    · exact absurd h' (by decide)
    · rcases List.mem_cons.mp h' with h'' | h''
      · exact absurd h'' (by decide)
      · exact checksumEntries_path_no_newline hok he h''


theorem parse_manifestContent (t : SourceTree)
    (hok : ∀ f ∈ t.files, pathOk f.path = true) :
    parseChecksumManifest (manifestContent t) = some (checksumEntries t) := by
  have hne : checksumEntries t ≠ [] := by
    intro hcontra
    have := (checksumEntries_perm t).symm.length_eq
    rw [hcontra] at this
    simp [rawManifestEntries] at this
  have hlines : linesOf (checksumEntries t) ≠ [] := by
    intro hcontra
    exact hne (List.map_eq_nil_iff.mp hcontra)
  unfold parseChecksumManifest manifestContent
  have hdata : (String.mk (joinWithChar '\n' ((checksumEntries t).map manifestLineChars)
      ++ ['\n'])).data
      = joinWithChar '\n' (linesOf (checksumEntries t)) ++ ['\n'] := rfl
  rw [hdata]
  rw [split_join_newline (linesOf (checksumEntries t)) hlines
    (fun l hl => by
      rcases List.mem_map.mp hl with ⟨e, he, rfl⟩
      exact manifestLine_no_newline hok he)]
  rw [List.reverse_append]
  show (match ([[]].reverse ++ (linesOf (checksumEntries t)).reverse) with
    | [] => none
    | last :: revLines =>
      if last.isEmpty && !revLines.isEmpty then mapOpt parseLine revLines.reverse
      else none) = _
  have : ([[]] : List (List Char)).reverse ++ (linesOf (checksumEntries t)).reverse
      = [] :: (linesOf (checksumEntries t)).reverse := by simp
  rw [this]
  have hrevne : ((linesOf (checksumEntries t)).reverse).isEmpty = false := by
    cases hl : linesOf (checksumEntries t) with
    | nil => exact absurd hl hlines
    | cons x xs => simp [hl]
  show (if List.isEmpty [] && !((linesOf (checksumEntries t)).reverse).isEmpty
    then mapOpt parseLine ((linesOf (checksumEntries t)).reverse).reverse
    else none) = _
  rw [hrevne]
  simp only [List.isEmpty_nil, Bool.not_false, Bool.and_true, if_true, List.reverse_reverse]
  exact mapOpt_parseLine _ (fun e he => checksumEntries_hash_no_space he)


theorem strictSorted_of_pairwise : ∀ {l : List ManifestEntry},
    l.Pairwise (fun a b => strLtB a.Path b.Path = true) → entriesStrictlySorted l = true := by
  intro l
  induction l with
  | nil => intro _; rfl
  | cons a rest ih =>
    intro h
    rcases List.pairwise_cons.mp h with ⟨ha, hrest⟩
    cases rest with
    | nil => rfl
    | cons b rest₂ =>
      show (strLtB a.Path b.Path && entriesStrictlySorted (b :: rest₂)) = true
      rw [ha b (by simp), ih hrest]
      rfl


theorem concatMap_eq_nil {f : α → List β} : ∀ {l : List α},
    (∀ x ∈ l, f x = []) → concatMap f l = [] := by
  intro l
  induction l with
  | nil => intro _; rfl
  | cons a as ih =>
    intro h
    show f a ++ concatMap f as = []
    rw [h a (by simp), ih (fun x hx => h x (by simp [hx]))]
    rfl


theorem mem_concatMap_of_mem {f : α → List β} {a : α} {b : β} : ∀ {l : List α},
    a ∈ l → b ∈ f a → b ∈ concatMap f l := by
  intro l
  induction l with
  | nil => intro ha _; simp at ha
  | cons x xs ih =>
    intro ha hb
    show b ∈ f x ++ concatMap f xs
    rcases List.mem_cons.mp ha with rfl | ha
    · exact List.mem_append.mpr (Or.inl hb)
    · exact List.mem_append.mpr (Or.inr (ih ha hb))


theorem checksumEntries_not_reserved {t : SourceTree}
    (hres : ∀ f ∈ t.files,
      f.path ≠ "itpkg.json" ∧ f.path ≠ "MANIFEST.sha256" ∧ f.path ≠ "SIGNATURE") :
    ∀ e ∈ checksumEntries t, e.Path ≠ "MANIFEST.sha256" ∧ e.Path ≠ "SIGNATURE" := by
  intro e he
  rcases mem_checksumEntries_path he with hp | ⟨f, hf, _, hp⟩
  · rw [hp]
    exact ⟨by decide, by decide⟩
  · rw [hp]
    exact ⟨(hres f hf).2.1, (hres f hf).2.2⟩


theorem treeLookup_of_mem {t : SourceTree} {f : SrcFile}
    (hnd : (t.files.map (fun g => g.path)).Nodup) (hf : f ∈ t.files) :
    treeLookup t f.path = some f.content := by
  unfold treeLookup
  cases hfind : t.files.find? (fun g => g.path == f.path) with
  | none =>
    have := List.find?_eq_none.mp hfind f hf
    simp at this
  | some g =>
    have hg : g ∈ t.files := List.mem_of_find?_eq_some hfind
    have hgp : g.path = f.path := by simpa using List.find?_some hfind
    rw [path_unique hnd hg hf hgp]
    rfl


/-- Every entry declared by the built checksum manifest re-hashes to its
declared digest against the built archive. -/
theorem checksumEntries_lookup {t : SourceTree} {sig : String}
    (hnd : (t.files.map (fun f => f.path)).Nodup)
    (hres : ∀ f ∈ t.files,
      f.path ≠ "itpkg.json" ∧ f.path ≠ "MANIFEST.sha256" ∧ f.path ≠ "SIGNATURE") :
    ∀ e ∈ checksumEntries t, ∃ c,
      lookupEntry ((addBytesToTar (marshalManifest t.manifest) 0o644 "itpkg.json" ::
        (walkFiles t).map (fun f => addBytesToTar f.content f.mode f.path)
        ++ [addBytesToTar (manifestContent t) 0o644 "MANIFEST.sha256"])
        ++ [addBytesToTar sig 0o644 "SIGNATURE"]) e.Path = some c ∧
      e.Hash = sha256Hex c := by
  intro e he
  have hmem : e ∈ rawManifestEntries t := (checksumEntries_perm t).mem_iff.mp he
  rcases List.mem_cons.mp hmem with rfl | hmem
  · exact ⟨marshalManifest t.manifest, lookupEntry_build_itpkg, rfl⟩
  · rcases List.mem_map.mp hmem with ⟨f, hf, rfl⟩
    rcases mem_walkFiles.mp hf with ⟨hft, hfne⟩
    refine ⟨f.content, ?_, rfl⟩
    rw [lookupEntry_build_file hnd hfne (hres f hft).2.1 (hres f hft).2.2]
    exact treeLookup_of_mem hnd hft


theorem fileIssues_build_nil {t : SourceTree} {sig : String}
    (hnd : (t.files.map (fun f => f.path)).Nodup)
    (hres : ∀ f ∈ t.files,
      f.path ≠ "itpkg.json" ∧ f.path ≠ "MANIFEST.sha256" ∧ f.path ≠ "SIGNATURE") :
    fileIssues ((addBytesToTar (marshalManifest t.manifest) 0o644 "itpkg.json" ::
      (walkFiles t).map (fun f => addBytesToTar f.content f.mode f.path)
      ++ [addBytesToTar (manifestContent t) 0o644 "MANIFEST.sha256"])
      ++ [addBytesToTar sig 0o644 "SIGNATURE"]) (checksumEntries t) = [] := by
  unfold fileIssues
  have h1 : concatMap (fun e =>
      match lookupEntry ((addBytesToTar (marshalManifest t.manifest) 0o644 "itpkg.json" ::
        (walkFiles t).map (fun f => addBytesToTar f.content f.mode f.path)
        ++ [addBytesToTar (manifestContent t) 0o644 "MANIFEST.sha256"])
        ++ [addBytesToTar sig 0o644 "SIGNATURE"]) e.Path with
      | none => [(IntegrityKind.missing, e.Path)]
      | some c => if sha256Hex c == e.Hash then [] else [(IntegrityKind.modified, e.Path)])
      (checksumEntries t) = [] := by
    apply concatMap_eq_nil
    intro e he
    rcases checksumEntries_lookup hnd hres e he with ⟨c, hl, hh⟩
    rw [hl, hh]
    simp
  rw [h1]
  have h2 : (((addBytesToTar (marshalManifest t.manifest) 0o644 "itpkg.json" ::
      (walkFiles t).map (fun f => addBytesToTar f.content f.mode f.path)
      ++ [addBytesToTar (manifestContent t) 0o644 "MANIFEST.sha256"])
      ++ [addBytesToTar sig 0o644 "SIGNATURE"]).map (fun e => e.Name)).filter (fun n =>
        !(checksumEntries t).any (fun e => e.Path == n)
          && n != "MANIFEST.sha256" && n != "SIGNATURE") = [] := by
    rw [List.filter_eq_nil_iff]
    intro n hn
    rcases List.mem_map.mp hn with ⟨e, he, rfl⟩
    simp only [List.mem_append, List.mem_cons, List.mem_map, List.mem_singleton,
      List.not_mem_nil, or_false] at he
    rcases he with ((rfl | ⟨f, hf, rfl⟩) | rfl) | rfl
    · have hdecl : (checksumEntries t).any
          (fun e => e.Path == (addBytesToTar (marshalManifest t.manifest) 0o644 "itpkg.json").Name)
            = true := by
        apply List.any_eq_true.mpr
        refine ⟨{ Hash := sha256Hex (marshalManifest t.manifest), Path := "itpkg.json" }, ?_, ?_⟩
        · exact (checksumEntries_perm t).mem_iff.mpr (by simp [rawManifestEntries])
        · rfl
      simp [hdecl]
    · have hdecl : (checksumEntries t).any (fun e => e.Path == f.path) = true := by
        apply List.any_eq_true.mpr
        refine ⟨{ Hash := sha256Hex f.content, Path := f.path }, ?_, ?_⟩
        · apply (checksumEntries_perm t).mem_iff.mpr
          exact List.mem_cons.mpr (Or.inr (List.mem_map.mpr ⟨f, hf, rfl⟩))
        · simp
      simp [addBytesToTar, hdecl]
    · simp [addBytesToTar]
    · simp [addBytesToTar]
  rw [h2]
  rfl


/-! Tampering lemmas: `tamperEntry` preserves names, changes the tampered
entry's content, and leaves all other entries unchanged. -/

theorem tamper_lookup_other {p c q : String} (hq : q ≠ p) : ∀ {es : List TarEntry},
    lookupEntry (tamperEntry es p c) q = lookupEntry es q := by
  intro es
  induction es with
  | nil => rfl
  | cons e rest ih =>
    show (match lookupEntry (tamperEntry rest p c) q with
      | some x => some x
      | none =>
        if (if (e.Name == p) = true then { e with content := c } else e).Name == q
        then some (if (e.Name == p) = true then { e with content := c } else e).content
        else none)
      = (match lookupEntry rest q with
      | some x => some x
      | none => if e.Name == q then some e.content else none)
    rw [ih]
    by_cases he : (e.Name == p) = true
    · have hep : e.Name = p := beq_iff_eq.mp he
      have hnq : (e.Name == q) = false := beq_eq_false_iff_ne.mpr (by rw [hep]; exact fun h => hq h.symm)
      cases lookupEntry rest q <;> simp [he, hnq]
    · cases lookupEntry rest q <;> simp [he]


theorem tamper_lookup_self (p c : String) : ∀ {es : List TarEntry},
    lookupEntry (tamperEntry es p c) p = (lookupEntry es p).map (fun _ => c) := by
  intro es
  induction es with
  | nil => rfl
  | cons e rest ih =>
    show (match lookupEntry (tamperEntry rest p c) p with
      | some x => some x
      | none =>
        if (if (e.Name == p) = true then { e with content := c } else e).Name == p
        then some (if (e.Name == p) = true then { e with content := c } else e).content
        else none)
      = (match lookupEntry rest p with
      | some x => some x
      | none => if e.Name == p then some e.content else none).map (fun _ => c)
    rw [ih]
    by_cases he : (e.Name == p) = true
    · cases lookupEntry rest p <;> simp [he]
    · cases lookupEntry rest p <;> simp [he]


theorem tamper_names (p c : String) : ∀ (es : List TarEntry),
    (tamperEntry es p c).map (fun e => e.Name) = es.map (fun e => e.Name) := by
  intro es
  induction es with
  | nil => rfl
  | cons e rest ih =>
    show (if (e.Name == p) = true then { e with content := c } else e).Name ::
      (tamperEntry rest p c).map (fun e => e.Name) = e.Name :: rest.map (fun e => e.Name)
    rw [ih]
    by_cases he : (e.Name == p) = true <;> simp [he]


theorem fileIssues_tamper_eq {es : List TarEntry} {p c : String} {decl : List ManifestEntry}
    (hdecl : ∀ e ∈ decl, e.Path ≠ p) :
    fileIssues (tamperEntry es p c) decl = fileIssues es decl := by
  unfold fileIssues
  have h1 : ∀ e ∈ decl,
      (match lookupEntry (tamperEntry es p c) e.Path with
        | none => [(IntegrityKind.missing, e.Path)]
        | some x => if sha256Hex x == e.Hash then [] else [(IntegrityKind.modified, e.Path)])
      = (match lookupEntry es e.Path with
        | none => [(IntegrityKind.missing, e.Path)]
        | some x => if sha256Hex x == e.Hash then [] else [(IntegrityKind.modified, e.Path)]) := by
    intro e he
    rw [tamper_lookup_other (hdecl e he)]
  have h2 : ∀ {l₁ l₂ : List ManifestEntry} (f g : ManifestEntry → List (IntegrityKind × String)),
      l₁ = l₂ → (∀ x ∈ l₁, f x = g x) → concatMap f l₁ = concatMap g l₂ := by
    intro l₁ l₂ f g hl hfg
    subst hl
    induction l₁ with
    | nil => rfl
    | cons a as ih =>
      show f a ++ concatMap f as = g a ++ concatMap g as
      rw [hfg a (by simp), ih (fun x hx => hfg x (by simp [hx]))]
  rw [h2 _ _ rfl h1, tamper_names]


/-- C10 witness: two trees differing only in the bytes (and mode) of their
source `itpkg.json` build to the identical archive. -/
theorem c10_witness :
    createItpkg { demoTree with files := { path := "itpkg.json", mode := 0o644, content := "compact json bytes" } :: demoTree.files } none true
      = createItpkg { demoTree with files := { path := "itpkg.json", mode := 0o600, content := "pretty json bytes with extra fields" } :: demoTree.files } none true :=
  (c10_manifest_reserialization demoTree none true).2 0o644 0o600
    "compact json bytes" "pretty json bytes with extra fields"



/-! Evaluation lemmas for the modelled verifier. -/

theorem verifyArchive_eval {es : List TarEntry} {pub : Nat} {s : String}
    {decl : List ManifestEntry}
    (h1 : lookupEntry es "MANIFEST.sha256" = some s)
    (h2 : parseChecksumManifest s = some decl)
    (h3 : entriesStrictlySorted decl = true)
    (h3' : decl.all (fun e => e.Path != "MANIFEST.sha256") = true)
    (h4 : fileIssues es decl = [])
    (h5 : lookupEntry es "SIGNATURE" = some (ed25519Sign pub s)) :
    verifyArchive es false pub = Except.ok () := by
  unfold verifyArchive
  simp only [h1, h2, h3, h3']
  rw [if_neg (by decide)]
  simp only [h4, h5]
  rw [beq_eq_false_iff_ne.mpr (ed25519Sign_ne_unsigned pub s)]
  have hV : ed25519Verify pub s (ed25519Sign pub s) = true := by
    unfold ed25519Verify
    exact beq_self_eq_true _
  rw [hV]
  rfl


theorem verifyArchive_not_ok_issues {es : List TarEntry} {pub : Nat} {s : String}
    {decl : List ManifestEntry}
    (h1 : lookupEntry es "MANIFEST.sha256" = some s)
    (h2 : parseChecksumManifest s = some decl)
    (h4 : fileIssues es decl ≠ []) :
    (verifyArchive es false pub).isOk = false := by
  unfold verifyArchive
  simp only [h1, h2]
  cases hX : entriesStrictlySorted decl && decl.all (fun e => e.Path != "MANIFEST.sha256") with
  | false =>
    rw [if_pos (by decide)]
    rfl
  | true =>
    rw [if_neg (by decide)]
    cases hI : fileIssues es decl with
    | nil => exact absurd hI h4
    | cons a l => rfl


theorem verifyArchive_not_ok_manifest {es : List TarEntry} {pub : Nat} {s s' : String}
    (h1 : lookupEntry es "MANIFEST.sha256" = some s')
    (h5 : lookupEntry es "SIGNATURE" = some (ed25519Sign pub s))
    (hne : s' ≠ s) :
    (verifyArchive es false pub).isOk = false := by
  unfold verifyArchive
  simp only [h1]
  cases hp : parseChecksumManifest s' with
  | none => rfl
  | some decl =>
    simp only [hp]
    cases hX : entriesStrictlySorted decl && decl.all (fun e => e.Path != "MANIFEST.sha256") with
    | false =>
      rw [if_pos (by decide)]
      rfl
    | true =>
      rw [if_neg (by decide)]
      cases hI : fileIssues es decl with
      | cons a l => rfl
      | nil =>
        simp only [h5]
        rw [beq_eq_false_iff_ne.mpr (ed25519Sign_ne_unsigned pub s)]
        have hV : ed25519Verify pub s' (ed25519Sign pub s) = false := by
          unfold ed25519Verify
          exact beq_eq_false_iff_ne.mpr (fun h => hne ((ed25519Sign_inj h).2).symm)
        rw [hV]
        rfl


theorem verifyArchive_not_ok_sig {es : List TarEntry} {pub : Nat} {s g : String}
    (h1 : lookupEntry es "MANIFEST.sha256" = some s)
    (h5 : lookupEntry es "SIGNATURE" = some g)
    (hg : ed25519Verify pub s g = false) :
    (verifyArchive es false pub).isOk = false := by
  unfold verifyArchive
  simp only [h1]
  cases hp : parseChecksumManifest s with
  | none => rfl
  | some decl =>
    simp only [hp]
    cases hX : entriesStrictlySorted decl && decl.all (fun e => e.Path != "MANIFEST.sha256") with
    | false =>
      rw [if_pos (by decide)]
      rfl
    | true =>
      rw [if_neg (by decide)]
      cases hI : fileIssues es decl with
      | cons a l => rfl
      | nil =>
        simp only [h5]
        cases hU : g == "UNSIGNED" with
        | true =>
          rw [if_pos rfl]
          rfl
        | false =>
          rw [if_neg (by decide), hg, if_neg (by decide)]
          rfl


theorem fileIssues_ne_nil_of_modified {es : List TarEntry} {decl : List ManifestEntry}
    {e : ManifestEntry} {c : String}
    (he : e ∈ decl) (hl : lookupEntry es e.Path = some c) (hh : sha256Hex c ≠ e.Hash) :
    fileIssues es decl ≠ [] := by
  unfold fileIssues
  intro h
  rcases List.append_eq_nil.mp h with ⟨h1, _⟩
  have hm : (IntegrityKind.modified, e.Path) ∈ concatMap (fun e =>
      match lookupEntry es e.Path with
      | none => [(IntegrityKind.missing, e.Path)]
      | some c => if sha256Hex c == e.Hash then [] else [(IntegrityKind.modified, e.Path)]) decl := by
    apply mem_concatMap_of_mem he
    rw [hl]
    simp [beq_eq_false_iff_ne.mpr hh]
  rw [h1] at hm
  exact absurd hm (List.not_mem_nil _)


/-- C2: for every archive successfully built and signed with key `kk` from a
source tree with well-formed, duplicate-free file paths none of which uses an
engine-owned name, the modelled `Verify` accepts the untouched archive
(strict signature mode, matching public key), and rejects — `Verify` does
not return ok — every replacement of the content of the packaged manifest
`itpkg.json`, of any packaged source file, of the checksum manifest
`MANIFEST.sha256`, or of the signature file `SIGNATURE` (single byte flips
are instances of such replacements). -/
theorem c2_tamper_detection (t : SourceTree) (kk : Nat) (es : List TarEntry)
    (hok : ∀ f ∈ t.files, pathOk f.path = true)
    (hnd : (t.files.map (fun f => f.path)).Nodup)
    (hres : ∀ f ∈ t.files,
      f.path ≠ "itpkg.json" ∧ f.path ≠ "MANIFEST.sha256" ∧ f.path ≠ "SIGNATURE")
    (hes : (createItpkg t (some kk) false).result = Except.ok es) :
    verifyArchive es false kk = Except.ok ()
    ∧ (∀ c', c' ≠ marshalManifest t.manifest →
        (verifyArchive (tamperEntry es "itpkg.json" c') false kk).isOk = false)
    ∧ (∀ f ∈ t.files, ∀ c', c' ≠ f.content →
        (verifyArchive (tamperEntry es f.path c') false kk).isOk = false)
    ∧ (∀ s', s' ≠ manifestContent t →
        (verifyArchive (tamperEntry es "MANIFEST.sha256" s') false kk).isOk = false)
    ∧ (∀ g', g' ≠ ed25519Sign kk (manifestContent t) →
        (verifyArchive (tamperEntry es "SIGNATURE" g') false kk).isOk = false) := by
  obtain ⟨sig, rfl, hsig⟩ := createItpkg_ok_shape hes
  have hsig' : sig = ed25519Sign kk (manifestContent t) := by
    rcases hsig with ⟨hk, _, _⟩ | ⟨k₂, hk, hs⟩
    · exact Option.noConfusion hk
    · cases Option.some.inj hk
      exact hs
  subst hsig'
  have hstrict : entriesStrictlySorted (checksumEntries t) = true :=
    strictSorted_of_pairwise (checksumEntries_sorted_strict hnd)
  have hall : (checksumEntries t).all (fun e => e.Path != "MANIFEST.sha256") = true := by
    rw [List.all_eq_true]
    intro e he
    exact bne_iff_ne.mpr (checksumEntries_not_reserved hres e he).1
  have hparse := parse_manifestContent t hok
  refine ⟨?_, ?_, ?_, ?_, ?_⟩
  · exact verifyArchive_eval lookupEntry_build_manifest hparse hstrict hall
      (fileIssues_build_nil hnd hres) lookupEntry_build_signature
  · intro c' hc'
    refine verifyArchive_not_ok_issues ?_ hparse ?_
    · rw [tamper_lookup_other (by decide)]
      exact lookupEntry_build_manifest
    · refine fileIssues_ne_nil_of_modified
        (e := { Hash := sha256Hex (marshalManifest t.manifest), Path := "itpkg.json" })
        (c := c') ?_ ?_ ?_
      · exact (checksumEntries_perm t).mem_iff.mpr (by simp [rawManifestEntries])
      · show lookupEntry (tamperEntry _ "itpkg.json" c') "itpkg.json" = some c'
        rw [tamper_lookup_self, lookupEntry_build_itpkg]
        rfl
      · exact fun h => hc' (sha256Hex_inj h)
  · intro f hf c' hc'
    refine verifyArchive_not_ok_issues ?_ hparse ?_
    · rw [tamper_lookup_other (Ne.symm (hres f hf).2.1)]
      exact lookupEntry_build_manifest
    · refine fileIssues_ne_nil_of_modified
        (e := { Hash := sha256Hex f.content, Path := f.path }) (c := c') ?_ ?_ ?_
      · apply (checksumEntries_perm t).mem_iff.mpr
        apply List.mem_cons.mpr
        refine Or.inr (List.mem_map.mpr ⟨f, ?_, rfl⟩)
        exact mem_walkFiles.mpr ⟨hf, (hres f hf).1⟩
      · show lookupEntry (tamperEntry _ f.path c') f.path = some c'
        rw [tamper_lookup_self,
          lookupEntry_build_file hnd (hres f hf).1 (hres f hf).2.1 (hres f hf).2.2,
          treeLookup_of_mem hnd hf]
        rfl
      · exact fun h => hc' (sha256Hex_inj h)
  · intro s' hs'
    refine verifyArchive_not_ok_manifest ?_ ?_ hs'
    · show lookupEntry (tamperEntry _ "MANIFEST.sha256" s') "MANIFEST.sha256" = some s'
      rw [tamper_lookup_self, lookupEntry_build_manifest]
      rfl
    · rw [tamper_lookup_other (by decide)]
      exact lookupEntry_build_signature
  · intro g' hg'
    refine verifyArchive_not_ok_sig (s := manifestContent t) (g := g') ?_ ?_ ?_
    · rw [tamper_lookup_other (by decide)]
      exact lookupEntry_build_manifest
    · show lookupEntry (tamperEntry _ "SIGNATURE" g') "SIGNATURE" = some g'
      rw [tamper_lookup_self, lookupEntry_build_signature]
      rfl
    · unfold ed25519Verify
      exact beq_eq_false_iff_ne.mpr hg'


/-- C2 witness: the scenario tree built and signed with key `7`; the clean
archive verifies, and blanking the archived checksum manifest is rejected. -/
theorem c2_witness :
    (createItpkg demoTree (some 7) false).result
        = Except.ok ((addBytesToTar (marshalManifest demoTree.manifest) 0o644 "itpkg.json" ::
            (walkFiles demoTree).map (fun f => addBytesToTar f.content f.mode f.path)
            ++ [addBytesToTar (manifestContent demoTree) 0o644 "MANIFEST.sha256"])
            ++ [addBytesToTar (ed25519Sign 7 (manifestContent demoTree)) 0o644 "SIGNATURE"])
    ∧ verifyArchive ((addBytesToTar (marshalManifest demoTree.manifest) 0o644 "itpkg.json" ::
            (walkFiles demoTree).map (fun f => addBytesToTar f.content f.mode f.path)
            ++ [addBytesToTar (manifestContent demoTree) 0o644 "MANIFEST.sha256"])
            ++ [addBytesToTar (ed25519Sign 7 (manifestContent demoTree)) 0o644 "SIGNATURE"]) false 7
        = Except.ok ()
    ∧ (verifyArchive (tamperEntry
            ((addBytesToTar (marshalManifest demoTree.manifest) 0o644 "itpkg.json" ::
            (walkFiles demoTree).map (fun f => addBytesToTar f.content f.mode f.path)
            ++ [addBytesToTar (manifestContent demoTree) 0o644 "MANIFEST.sha256"])
            ++ [addBytesToTar (ed25519Sign 7 (manifestContent demoTree)) 0o644 "SIGNATURE"])
            "MANIFEST.sha256" "") false 7).isOk = false := by
  have hv : validateManifest demoTree.manifest demoTree = Except.ok () := by decide
  have hst : validateStructure demoTree demoTree.manifest = Except.ok () := by decide
  have hes : (createItpkg demoTree (some 7) false).result
      = Except.ok ((addBytesToTar (marshalManifest demoTree.manifest) 0o644 "itpkg.json" ::
          (walkFiles demoTree).map (fun f => addBytesToTar f.content f.mode f.path)
          ++ [addBytesToTar (manifestContent demoTree) 0o644 "MANIFEST.sha256"])
          ++ [addBytesToTar (ed25519Sign 7 (manifestContent demoTree)) 0o644 "SIGNATURE"]) := by
    unfold createItpkg
    rw [hv, hst]
  have h := c2_tamper_detection demoTree 7 _ (by decide) (by decide) (by decide) hes
  have hne : ("" : String) ≠ manifestContent demoTree := by
    intro hcontra
    have hd : ([] : List Char)
        = joinWithChar '\n' ((checksumEntries demoTree).map manifestLineChars) ++ ['\n'] :=
      congrArg String.data hcontra
    simp at hd
  exact ⟨hes, h.1, h.2.2.2.1 "" hne⟩

end Pack
